import Mathlib

/-!
Verification of the `package_it` build-artifact packaging helper.

The development shallowly embeds the relevant parts of the repository:

* `core.py` — the `package` function: archive-exists guard, build callback,
  orphan collection, glob expansion of the mapping, directory unrolling,
  the mtime-skipping copy loop, orphan deletion, archiving, git tagging,
  and the mutable-default handling of `tree_copy_dirs` / `quick_copy_dirs`.
* `cargo.py` — `version_control`: semantic-version read/bump on the
  manifest's version field.

Modelling conventions:

* Paths are Python strings; the filesystem is an association list from
  *normalized* paths (lists of path components, with empty and "."
  segments dropped, as `os.path.abspath` / the kernel's path resolution
  do) to modification times (`Nat`).  Symlinks and ".." components are
  outside the model.
* OS calls (`glob.glob`, `os.walk`, `os.path.isfile`, `os.path.isdir`,
  `os.path.getmtime`) are inputs to the embedded functions, exactly as
  they are effects of the Python code; well-formedness facts about their
  results (e.g. that `os.walk` yields clean entry names) appear as
  hypotheses.
* `shutil.copy` / `open(dst, "w")` set the destination's mtime to the
  time of the copy (`shutil.copy` does not preserve timestamps).
* The platform is POSIX: the path separator is '/'.
-/

deriving instance DecidableEq for Except

namespace PackageIt

/-- Split a character list on the path separator '/'.  Mirrors how a POSIX
path string decomposes into segments; used to normalize path strings. -/
def splitSlash : List Char → List (List Char)
  | [] => [[]]
  | c :: rest =>
    match splitSlash rest with
    | [] => [[]]
    | h :: t => if c = '/' then [] :: h :: t else (c :: h) :: t

theorem splitSlash_ne_nil (l : List Char) : splitSlash l ≠ [] := by
  cases l with
  | nil => simp [splitSlash]
  | cons c rest =>
    simp only [splitSlash]
    cases h : splitSlash rest with
    | nil => simp
    | cons a t =>
      by_cases hc : c = '/' <;> simp [hc]

theorem splitSlash_append_slash (a b : List Char) :
    splitSlash (a ++ '/' :: b) = splitSlash a ++ splitSlash b := by
  induction a with
  | nil =>
    simp only [List.nil_append, splitSlash]
    cases h : splitSlash b with
    | nil => exact absurd h (splitSlash_ne_nil b)
    | cons x t => simp
  | cons c a ih =>
    simp only [List.cons_append, splitSlash, List.append_eq]
    rw [ih]
    cases h : splitSlash a with
    | nil => exact absurd h (splitSlash_ne_nil a)
    | cons x t =>
      by_cases hc : c = '/' <;> simp [hc]

/-- Segments with no separator characters split trivially. -/
theorem splitSlash_no_slash (l : List Char) (h : '/' ∉ l) :
    splitSlash l = [l] := by
  induction l with
  | nil => rfl
  | cons c rest ih =>
    simp only [List.mem_cons, not_or] at h
    have hc : ¬ c = '/' := fun hc => h.1 hc.symm
    simp [splitSlash, ih h.2, hc]

/-- Keep a path segment iff it is neither empty nor the "." no-op segment
(the segments that path resolution discards). -/
def keepSeg (c : List Char) : Bool := decide (c ≠ [] ∧ c ≠ ['.'])

/-- Normalization of a path character list into its component list. -/
def normChars (l : List Char) : List String :=
  ((splitSlash l).filter keepSeg).map (fun c => String.mk c)

/-- Normalization of a path string into its component list: split on '/',
drop empty and "." segments.  This is how every path string the script
builds is interpreted by `os.path.abspath` and by the kernel when the
file is actually opened (no ".." components, no symlinks in the model). -/
def normPath (s : String) : List String := normChars s.data

theorem normChars_append_slash (a b : List Char) :
    normChars (a ++ '/' :: b) = normChars a ++ normChars b := by
  simp [normChars, splitSlash_append_slash, List.filter_append]

theorem data_append (a b : String) : (a ++ b).data = a.data ++ b.data := by
  cases a; cases b; rfl

theorem normPath_slash_append (a b : String) :
    normPath (a ++ "/" ++ b) = normPath a ++ normPath b := by
  have h : (a ++ "/" ++ b).data = a.data ++ '/' :: b.data := by
    simp [data_append]
  simp [normPath, h, normChars_append_slash]

/-- Test whether the last character of a string is the separator.  For a
non-empty string this is Python's `s[-1] == '/'` and `s.endswith('/')`;
for the empty string it is `False`, matching `endswith`. -/
def endsSlash (s : String) : Bool := s.data.getLast? = some '/'

theorem normChars_nil : normChars [] = [] := by
  simp [normChars, splitSlash, keepSeg]

theorem normPath_append_of_endsSlash (a b : String) (h : endsSlash a = true) :
    normPath (a ++ b) = normPath a ++ normPath b := by
  simp only [endsSlash, decide_eq_true_eq] at h
  obtain ⟨l, hl⟩ : ∃ l, a.data = l ++ ['/'] := by
    rcases List.eq_nil_or_concat a.data with hnil | ⟨l, c, hlc⟩
    · simp [hnil] at h
    · refine ⟨l, ?_⟩
      rw [hlc] at h ⊢
      simp [List.getLast?_concat] at h
      simp [h]
  have h1 : (a ++ b).data = l ++ '/' :: b.data := by
    simp [data_append, hl]
  have h2 : normPath a = normChars l := by
    have ha : a.data = l ++ '/' :: ([] : List Char) := by simpa using hl
    calc normPath a = normChars (l ++ '/' :: []) := by rw [normPath, ha]
    _ = normChars l ++ normChars [] := normChars_append_slash l []
    _ = normChars l := by rw [normChars_nil, List.append_nil]
  calc normPath (a ++ b) = normChars (l ++ '/' :: b.data) := by rw [normPath, h1]
  _ = normChars l ++ normChars b.data := normChars_append_slash l b.data
  _ = normPath a ++ normPath b := by rw [h2, normPath]

/-- A "clean" path component: non-empty, not ".", and containing no
separator — the shape of every entry name `os.walk` reports. -/
def cleanComp (s : String) : Bool := decide (s ≠ "" ∧ s ≠ "." ∧ '/' ∉ s.data)

theorem normPath_cleanComp (s : String) (h : cleanComp s = true) :
    normPath s = [s] := by
  simp only [cleanComp, decide_eq_true_eq] at h
  obtain ⟨h1, h2, h3⟩ := h
  have hs : splitSlash s.data = [s.data] := splitSlash_no_slash _ h3
  have hne : s.data ≠ [] := by
    intro hc
    exact h1 (by cases s with | mk l => simp at hc; simp [hc])
  have hnd : s.data ≠ ['.'] := by
    intro hc
    exact h2 (by cases s with | mk l => simp at hc; simp [hc])
  simp [normPath, normChars, hs, keepSeg, hne, hnd]

theorem normPath_empty : normPath "" = [] := by
  simp [normPath, normChars, splitSlash, keepSeg]

theorem normPath_dot : normPath "." = [] := by
  have : ("." : String).data = ['.'] := rfl
  simp [normPath, this, normChars, splitSlash, keepSeg]

/-- Model of `os.path.join` restricted to POSIX semantics and two arguments. -/
def pjoin (a b : String) : String :=
  if b.data.head? = some '/' then b
  else if a = "" ∨ endsSlash a then a ++ b
  else a ++ "/" ++ b

/-- Joining a path that does not start with the separator concatenates the
normalized component lists. -/
theorem normPath_pjoin (a b : String) (hb : b.data.head? ≠ some '/') :
    normPath (pjoin a b) = normPath a ++ normPath b := by
  simp only [pjoin, if_neg hb]
  by_cases h : a = "" ∨ endsSlash a = true
  · rw [if_pos h]
    rcases h with h | h
    · subst h
      have hd : (("" : String) ++ b).data = b.data := by
        rw [data_append]
        rfl
      rw [normPath_empty, List.nil_append]
      unfold normPath
      rw [hd]
    · exact normPath_append_of_endsSlash a b h
  · rw [if_neg h]
    exact normPath_slash_append a b

/-- Last path segment of a string: `os.path.basename` (POSIX). -/
def basename (s : String) : String := String.mk ((splitSlash s.data).getLastD [])

/-- A mapping entry after glob expansion: `[source, destination, source_key]`
(core.py keeps the originating mapping key as the third component). -/
structure Entry where
  src : String
  dst : String
  key : String
deriving DecidableEq

/-- The OS facilities `package` consults while resolving the mapping:
`os.path.isfile`, `glob.glob` (plain and with `recursive=True`), and
`os.walk`.  `walk d` is modelled as the list of walked directories, each
given by its component path relative to `d` together with the names of
the files it directly holds. -/
structure ResFS where
  isFile : String → Bool
  globPlain : String → List String
  globRec : String → List String
  walk : String → List (List String × List String)

/-- core.py line 227: `'*' in src or '?' in src`. -/
def hasWildcard (s : String) : Bool := s.data.contains '*' || s.data.contains '?'

/-- The characters preceding the first occurrence of `"**"`, if the string
contains one: core.py line 234, `src[:src.index('**')]` guarded by
`'**' in src`. -/
def starsSplit : List Char → Option (List Char)
  | '*' :: '*' :: _ => some []
  | c :: rest => (starsSplit rest).map (c :: ·)
  | [] => none

/-- core.py lines 188-194, for one entry: an empty destination is
substituted by '/'. -/
def validateEntry (p : String × String) : String × String :=
  if p.2 = "" then (p.1, "/") else p

/-- core.py lines 188-194: a one-element mapping entry receives destination
'/', and an empty destination is substituted by '/'.  (One-element entries
are already represented as pairs here; the empty-destination substitution
is the observable part.) -/
def validate (m : List (String × String)) : List (String × String) :=
  m.map validateEntry

/-- core.py lines 227-251: expansion of a single mapping entry.  A wildcard
source requires a '/'-terminated destination, else the run is aborted
with the exact message of line 230.  A recursive wildcard re-roots each
match by stripping the pre-`**` path prefix (lines 233-245, with
`os.sep = '/'`); a plain wildcard keeps the destination (lines 247-249);
a non-wildcard source passes through as `[src, dst, src]` (line 251). -/
def globOne (fs : ResFS) (src dst : String) : Except String (List Entry) :=
  if hasWildcard src then
    if endsSlash dst = false then
      .error ("fatal: Globbed source path must be directory: " ++ src)
    else
      match starsSplit src.data with
      | some pfx =>
        .ok ((fs.globRec src).map (fun f =>
          ⟨f, dst ++ String.mk (f.data.drop pfx.length), src⟩))
      | none =>
        .ok ((fs.globPlain src).map (fun f => ⟨f, dst, src⟩))
  else
    .ok [⟨src, dst, src⟩]

/-- core.py lines 224-254: the glob expansion loop over the whole mapping;
the first offending wildcard entry aborts the run. -/
def globPhase (fs : ResFS) : List (String × String) → Except String (List Entry)
  | [] => .ok []
  | (src, dst) :: rest => do
    let es ← globOne fs src dst
    let esRest ← globPhase fs rest
    .ok (es ++ esRest)

/-- Model of `os.path.relpath(root, src)` for a walked root given by its component
path relative to `src`: "." for the top itself, the '/'-joined components
otherwise. -/
def joinRel : List String → String
  | [] => "."
  | [c] => c
  | c :: c2 :: rest => c ++ "/" ++ joinRel (c2 :: rest)

/-- The walked root path itself: `os.walk` builds each root by joining the
top with the chain of subdirectory names. -/
def joinComps (base : String) : List String → String
  | [] => base
  | c :: rest => joinComps (pjoin base c) rest

/-- core.py lines 256-272: unrolling one mapping entry whose source is not
a regular file.  Each file found by `os.walk(src)` becomes an entry
`(os.path.join(root, file), os.path.join(dst, relpath(root, src)) + '/',
src_key)`.  (The `dst.endswith('/')` check at line 262 only prints a
warning and does not alter the result.) -/
def unrollOne (fs : ResFS) (e : Entry) : List Entry :=
  if fs.isFile e.src then []
  else
    (fs.walk e.src).flatMap (fun w =>
      let root := joinComps e.src w.1
      let dstRoot := joinRel w.1
      w.2.map (fun f =>
        ⟨pjoin root f, pjoin e.dst dstRoot ++ "/", e.key⟩))

/-- core.py lines 188-274: full mapping resolution — validation, glob
expansion, then `mapping += unpacked` where `unpacked` collects the
unrolled directory contents in mapping order. -/
def resolveMapping (fs : ResFS) (m : List (String × String)) : Except String (List Entry) :=
  (globPhase fs (validate m)).map (fun es => es ++ es.flatMap (unrollOne fs))

/-- core.py lines 280-281: the copy loop appends the source's basename when
the destination is '/'-terminated. -/
def finalRelDst (e : Entry) : String :=
  if endsSlash e.dst then e.dst ++ basename e.src else e.dst

/-- core.py line 284 with `os.path.abspath` (line 287): the normalized
absolute destination `f"{pkg_dir}/{out_name}/{dst}"` of an entry. -/
def finalDst (pkgDir outName : String) (e : Entry) : List String :=
  normPath (pkgDir ++ "/" ++ outName ++ "/" ++ finalRelDst e)

theorem endsSlash_append_slash (s : String) : endsSlash (s ++ "/") = true := by
  have h : (s ++ "/").data = s.data ++ ['/'] := by
    rw [data_append]
  simp [endsSlash, h, List.getLast?_concat]

theorem head_not_slash_of_cleanComp (s : String) (h : cleanComp s = true) :
    s.data.head? ≠ some '/' := by
  simp only [cleanComp, decide_eq_true_eq] at h
  intro hc
  cases hd : s.data with
  | nil => rw [hd] at hc; simp at hc
  | cons c rest =>
    rw [hd] at hc
    simp at hc
    refine h.2.2 ?_
    rw [hd, hc]
    exact List.mem_cons_self _ _

theorem joinRel_head_not_slash (cs : List String) (h : ∀ c ∈ cs, cleanComp c = true) :
    (joinRel cs).data.head? ≠ some '/' := by
  match cs with
  | [] => intro hc; simp [joinRel] at hc
  | [c] =>
    exact head_not_slash_of_cleanComp c (h c (List.mem_singleton_self c))
  | c :: c2 :: rest =>
    have hc := h c (List.mem_cons_self _ _)
    simp only [cleanComp, decide_eq_true_eq] at hc
    have hne : c.data ≠ [] := by
      intro hn
      exact hc.1 (by cases c with | mk l => simp at hn; simp [hn])
    simp only [joinRel, data_append]
    cases hd : c.data with
    | nil => exact absurd hd hne
    | cons x xs =>
      simp only [List.cons_append, List.head?_cons]
      intro hx
      simp at hx
      exact hc.2.2 (by rw [hd, hx]; exact List.mem_cons_self _ _)

theorem normPath_joinRel (cs : List String) (h : ∀ c ∈ cs, cleanComp c = true) :
    normPath (joinRel cs) = cs := by
  match cs with
  | [] => exact normPath_dot
  | [c] => exact normPath_cleanComp c (h c (List.mem_singleton_self c))
  | c :: c2 :: rest =>
    have ih := normPath_joinRel (c2 :: rest) (fun x hx => h x (List.mem_cons_of_mem _ hx))
    simp only [joinRel]
    rw [normPath_slash_append, normPath_cleanComp c (h c (List.mem_cons_self _ _)), ih]
    rfl

theorem normPath_joinComps (base : String) (cs : List String)
    (h : ∀ c ∈ cs, cleanComp c = true) :
    normPath (joinComps base cs) = normPath base ++ cs := by
  induction cs generalizing base with
  | nil => simp [joinComps]
  | cons c rest ih =>
    have hc := h c (List.mem_cons_self _ _)
    simp only [joinComps]
    rw [ih (pjoin base c) (fun x hx => h x (List.mem_cons_of_mem _ hx))]
    rw [normPath_pjoin base c (head_not_slash_of_cleanComp c hc),
        normPath_cleanComp c hc]
    simp

theorem basename_pjoin (root f : String) (h : cleanComp f = true) :
    basename (pjoin root f) = f := by
  have hhead := head_not_slash_of_cleanComp f h
  simp only [cleanComp, decide_eq_true_eq] at h
  have hsplit : splitSlash f.data = [f.data] := splitSlash_no_slash _ h.2.2
  have hbase : ∀ l : List Char, splitSlash (l ++ '/' :: f.data) ≠ [] →
      (splitSlash (l ++ '/' :: f.data)).getLastD [] = f.data := by
    intro l _
    rw [splitSlash_append_slash, hsplit]
    simp
  simp only [pjoin, if_neg hhead]
  by_cases hr : root = "" ∨ endsSlash root = true
  · rw [if_pos hr]
    rcases hr with hr | hr
    · subst hr
      have hd : (("" : String) ++ f).data = f.data := by
        rw [data_append]
        rfl
      simp only [basename, hd, hsplit]
      simp
    · simp only [endsSlash, decide_eq_true_eq] at hr
      obtain ⟨l, hl⟩ : ∃ l, root.data = l ++ ['/'] := by
        rcases List.eq_nil_or_concat root.data with hnil | ⟨l, c, hlc⟩
        · simp [hnil] at hr
        · refine ⟨l, ?_⟩
          rw [hlc] at hr ⊢
          simp [List.getLast?_concat] at hr
          simp [hr]
      have hd : (root ++ f).data = l ++ '/' :: f.data := by
        simp [data_append, hl]
      simp only [basename, hd]
      rw [hbase l (by rw [splitSlash_append_slash, hsplit]; simp)]
  · rw [if_neg hr]
    have hd : (root ++ "/" ++ f).data = root.data ++ '/' :: f.data := by
      simp [data_append]
    simp only [basename, hd]
    rw [hbase root.data (by rw [splitSlash_append_slash, hsplit]; simp)]

theorem normPath_pjoin_file (root f : String) (h : cleanComp f = true) :
    normPath (pjoin root f) = normPath root ++ [f] := by
  rw [normPath_pjoin root f (head_not_slash_of_cleanComp f h),
      normPath_cleanComp f h]

/-- Does the component list `p` start with the component list `pre`? -/
def startsWithComps : List String → List String → Bool
  | [], _ => true
  | _ :: _, [] => false
  | a :: as, b :: bs => decide (a = b) && startsWithComps as bs

/-- Whether `p` lies strictly under the directory `root` (both as normalized
component paths): the subtree relation `os.walk(root)` enumerates. -/
def isUnder (root p : List String) : Bool :=
  startsWithComps root p && decide (p ≠ root)

/-- The staged filesystem: an association list from normalized paths to
modification times.  Only regular files are recorded; directories are
implicit (the empty-directory pruning of core.py lines 319-324 touches no
files and is outside the model).  Insertion overwrites every entry at the
path and deletion drops them all, matching a real filesystem where one
path holds one file. -/
structure FileMap where
  entries : List (List String × Nat)
deriving DecidableEq

/-- Model of `os.path.getmtime`: `none` models the raised `OSError` when the path
does not exist. -/
def FileMap.mtime (m : FileMap) (p : List String) : Option Nat :=
  (m.entries.find? (fun q => decide (q.1 = p))).map (fun q => q.2)

/-- The paths of the files present. -/
def FileMap.paths (m : FileMap) : List (List String) := m.entries.map (fun q => q.1)

/-- Writing a file: the new mtime is the time of the write. -/
def FileMap.insert (m : FileMap) (p : List String) (t : Nat) : FileMap :=
  ⟨(p, t) :: m.entries.filter (fun q => decide (q.1 ≠ p))⟩

/-- Model of `os.remove`. -/
def FileMap.erase (m : FileMap) (p : List String) : FileMap :=
  ⟨m.entries.filter (fun q => decide (q.1 ≠ p))⟩

/-- State of the copy loop: the filesystem, the remaining deletion
candidates (`non_targets`), and the number of copies performed so far. -/
structure LoopState where
  fs : FileMap
  nonTargets : List (List String)
  copies : Nat
deriving DecidableEq

/-- core.py lines 277-312, one iteration: append the basename when the
destination is '/'-terminated, absolutize under
`f"{pkg_dir}/{out_name}/"`, discard the destination from `non_targets`
(`set.remove` with the `KeyError` swallowed, lines 286-289), skip
directory sources (line 293), skip up-to-date destinations unless
"invalidate all" is set (line 297, with a missing source or destination
mtime falling through to the copy, lines 300-301), otherwise copy,
stamping the destination with the current time. -/
def stepEntry (isDir : String → Bool) (invalidateAll : Bool) (now : Nat)
    (pkgDir outName : String) (st : LoopState) (e : Entry) : LoopState :=
  let dst := finalDst pkgDir outName e
  let nt := st.nonTargets.filter (fun q => decide (q ≠ dst))
  if isDir e.src then ⟨st.fs, nt, st.copies⟩
  else
    match st.fs.mtime (normPath e.src), st.fs.mtime dst with
    | some ms, some md =>
      if invalidateAll = false ∧ ms < md then ⟨st.fs, nt, st.copies⟩
      else ⟨st.fs.insert dst now, nt, st.copies + 1⟩
    | _, _ => ⟨st.fs.insert dst now, nt, st.copies + 1⟩

/-- core.py lines 215-221: with cleaning enabled, pre-populate the
deletion-candidate set with every file `os.walk(pkg_dir)` finds. -/
def collectNonTargets (noClean : Bool) (pkgDir : String) (fs : FileMap) :
    List (List String) :=
  if noClean then []
  else fs.paths.filter (fun p => isUnder (normPath pkgDir) p)

/-- Result of the staging phase. -/
structure StageResult where
  fs : FileMap
  copies : Nat
  deletions : Nat
deriving DecidableEq

/-- core.py lines 215-317: the whole staging phase — collect deletion
candidates, run the copy loop over the resolved entries, then delete
every remaining candidate (lines 314-317). -/
def runStage (isDir : String → Bool) (noClean invalidateAll : Bool) (now : Nat)
    (pkgDir outName : String) (entries : List Entry) (fs0 : FileMap) : StageResult :=
  let nt0 := collectNonTargets noClean pkgDir fs0
  let st := entries.foldl (stepEntry isDir invalidateAll now pkgDir outName) ⟨fs0, nt0, 0⟩
  ⟨st.nonTargets.foldl (fun m p => m.erase p) st.fs, st.copies, st.nonTargets.length⟩

/-- core.py lines 15-19: the version-bump instruction. -/
structure BumpVersion where
  major : Bool
  minor : Bool
  patch : Bool
deriving DecidableEq

/-- cargo.py lines 8-60, `version_control`.  The TOML manifest is
abstracted to its `[package].version` field (tomlkit's format-preserving
round trip is outside the embedding).  The result is the returned version
string paired with the rewritten field value when the file is written
back (`none` when no write happens); a `none` result models the
`ValueError` raised when a bump is requested and the field does not split
into exactly three integers (the split at line 38 runs before the flag
checks).  `version.split(".")` is `splitDot`, `int` is `charsToNat?`. -/
def splitDot : List Char → List (List Char)
  | [] => [[]]
  | c :: rest =>
    match splitDot rest with
    | [] => [[]]
    | h :: t => if c = '.' then [] :: h :: t else (c :: h) :: t

/-- A decimal digit's value. -/
def digitVal (c : Char) : Option Nat :=
  if '0' ≤ c ∧ c ≤ '9' then some (c.toNat - '0'.toNat) else none

/-- Python `int()` on a plain digit string — the shape of the version
components `version_control` splits out; a non-digit or empty component
raises `ValueError` (`none`). -/
def charsToNat? (cs : List Char) : Option Nat :=
  match cs with
  | [] => none
  | _ =>
    cs.foldl (fun acc c => acc.bind (fun n => (digitVal c).map (fun d => n * 10 + d)))
      (some 0)

def version_control (ver : String) (bump : Option BumpVersion) :
    Option (String × Option String) :=
  match bump with
  | none => some (ver, none)
  | some b =>
    match (splitDot ver.data).map charsToNat? with
    | [some major, some minor, some patch] =>
      if b.major then
        let v := s!"{major + 1}.0.0"
        some (v, some v)
      else if b.minor then
        let v := s!"{major}.{minor + 1}.0"
        some (v, some v)
      else if b.patch then
        let v := s!"{major}.{minor}.{patch + 1}"
        some (v, some v)
      else some (ver, none)
    | _ => none

/-- Python's f-string rendering of an optional string: `None` renders as
the four characters "None". -/
def pyFStr : Option String → String
  | some s => s
  | none => "None"

/-- Python truthiness of an optional string: `None` and `""` are falsy. -/
def strTruthy : Option String → Bool
  | some s => decide (s ≠ "")
  | none => false

/-- core.py line 379: the git tag
`f'{f"{git_tag_prefix}-" if git_tag_prefix else None}v{version}{version_tag}'`.
The conditional expression yields either the string `f"{git_tag_prefix}-"`
or the value `None`, and the outer f-string renders that value. -/
def makeTag (gitTagPfx : Option String) (version versionTag : String) : String :=
  pyFStr (if strTruthy gitTagPfx then some (pyFStr gitTagPfx ++ "-") else none)
    ++ "v" ++ version ++ versionTag

/-- core.py line 200: `opt.version_suffix if opt.version_suffix is not None
else ''`. -/
def versionTagOf (sfx : Option String) : String := sfx.getD ""

/-- core.py lines 91-119: the flags `package` consults. -/
structure ArgInit where
  profile : String
  no_archive : Bool
  no_build : Bool
  overwrite : Bool
  invalidate_all : Bool
  no_clean : Bool
  auto_git_tag : Bool
  allow_empty_dir : Bool
  version_suffix : Option String
deriving DecidableEq

/-- The three fatal `raise Exception(...)` sites of `package`, each with
its formatted message: line 207, line 213, line 230. -/
inductive PkgError where
  | archiveExists (msg : String)
  | buildFailed (msg : String)
  | badGlobDest (msg : String)
deriving DecidableEq

/-- What a completed `package` run produced. -/
structure PackageOutcome where
  fs : FileMap
  copies : Nat
  deletions : Nat
  archived : Bool
  tag : Option String
deriving DecidableEq

/-- A `package` run together with its observable side-effect counts (also
meaningful when the run aborts). -/
structure PackageTrace where
  buildCalls : Nat
  copies : Nat
  result : Except PkgError PackageOutcome

/-- core.py lines 210-213: the number of times `build_callback` is called
— once exactly when the no-build flag is unset and a callback is
supplied. -/
def buildCallsOf (no_build : Bool) (buildRet : Option Int) : Nat :=
  if no_build = false ∧ buildRet.isSome = true then 1 else 0

/-- core.py lines 210-213: the build-failure error, raised exactly when
the callback ran and returned non-zero. -/
def buildErrOf (no_build : Bool) (buildRet : Option Int) : Option PkgError :=
  match no_build, buildRet with
  | false, some r =>
    if r ≠ 0 then some (.buildFailed s!"fatal: Build script returned error: {r}")
    else none
  | _, _ => none

/-- core.py lines 143-385: the `package` control flow.  External effects
are inputs: `archiveExists` is `os.path.exists(oname_platform)`,
`buildRet` the return value of `build_callback` when one is supplied
(`none` = no callback), `platformTag` the string
`f"{platform.system()}-{platform.release()}"`, `fs`/`isDir`/`fs0` the
filesystem as seen by resolution and staging, `now` the clock during the
copy loop.  The guard at line 206 precedes the build at lines 210-213,
which precedes resolution (lines 224-274) and staging (lines 277-317);
`shutil.make_archive` (line 354) overwrites any existing archive; the git
tag (lines 378-382) is created only when archiving was not skipped. -/
def packageModel (opt : ArgInit) (outName version platformTag resultDir : String)
    (fs : ResFS) (isDir : String → Bool) (archiveExists : Bool)
    (buildRet : Option Int) (m : List (String × String)) (fs0 : FileMap)
    (now : Nat) (gitTagPfx : Option String) : PackageTrace :=
  let versionTag := versionTagOf opt.version_suffix
  let oname := resultDir ++ "/archive/" ++ outName ++ "-" ++ version ++ versionTag
    ++ "-" ++ opt.profile ++ "-" ++ platformTag
  let pkgDir := resultDir ++ "/" ++ platformTag ++ "/" ++ outName ++ "-" ++ opt.profile
  if opt.overwrite = false ∧ opt.no_archive = false ∧ archiveExists = true then
    ⟨0, 0, .error (.archiveExists ("fatal: File already exists: " ++ oname))⟩
  else
    let buildCalls := buildCallsOf opt.no_build buildRet
    match buildErrOf opt.no_build buildRet with
    | some err => ⟨buildCalls, 0, .error err⟩
    | none =>
      match resolveMapping fs m with
      | .error msg => ⟨buildCalls, 0, .error (.badGlobDest msg)⟩
      | .ok entries =>
        let stage := runStage isDir opt.no_clean opt.invalidate_all now pkgDir outName
          entries fs0
        let archived := opt.no_archive = false
        let tag :=
          if opt.auto_git_tag = true ∧ archived = true then
            some (makeTag gitTagPfx version versionTag)
          else none
        ⟨buildCalls, stage.copies,
          .ok ⟨stage.fs, stage.copies, stage.deletions, archived, tag⟩⟩

/-- core.py lines 150-152, 185 and 327-337: `tree_copy_dirs` defaults to a
single module-level list which `tree_copy_dirs += quick_copy_dirs`
extends in place, so an omitted `tree_copy_dirs` argument permanently
grows the default; the distribution loop at lines 327-337 iterates
`quick_copy_dirs` (skipping empty strings) and never reads
`tree_copy_dirs`.  `dflt` is the contents of the shared default list at
call time, `quickArg`/`treeArg` the explicitly passed arguments (`none` =
omitted; the `quick_copy_dirs` default list is never mutated, so an
omitted `quick_copy_dirs` is `[]`).  Result: the default list after the
call, and the directories the package tree is copied to. -/
def copyDirsCall (dflt : List String) (quickArg treeArg : Option (List String)) :
    List String × List String :=
  let quick := quickArg.getD []
  let newDflt := if treeArg.isNone then dflt ++ quick else dflt
  (newDflt, quick.filter (fun d => decide (d ≠ "")))

/-! ### Lemmas about the staged filesystem -/

theorem FileMap.mem_paths_iff_mtime (m : FileMap) (p : List String) :
    p ∈ m.paths ↔ (m.mtime p).isSome = true := by
  unfold FileMap.paths FileMap.mtime
  constructor
  · intro h
    obtain ⟨q, hq, hq1⟩ := List.mem_map.mp h
    have hs : (List.find? (fun q => decide (q.1 = p)) m.entries).isSome = true := by
      rw [List.find?_isSome]
      exact ⟨q, hq, by simp [hq1]⟩
    cases hf : List.find? (fun q => decide (q.1 = p)) m.entries with
    | none => rw [hf] at hs; simp at hs
    | some x => simp [hf]
  · intro h
    cases hf : List.find? (fun q => decide (q.1 = p)) m.entries with
    | none => rw [hf] at h; simp at h
    | some x =>
      have hx := List.find?_some hf
      have hmem := List.mem_of_find?_eq_some hf
      simp at hx
      exact List.mem_map.mpr ⟨x, hmem, hx⟩

theorem FileMap.mem_paths_insert (m : FileMap) (p q : List String) (t : Nat) :
    q ∈ (m.insert p t).paths ↔ (q = p ∨ q ∈ m.paths) := by
  unfold FileMap.paths FileMap.insert
  simp only [List.map_cons, List.mem_cons, List.mem_map, List.mem_filter,
    decide_eq_true_eq]
  constructor
  · rintro (h | ⟨x, ⟨hx, _⟩, hx2⟩)
    · exact Or.inl h
    · exact Or.inr ⟨x, hx, hx2⟩
  · rintro (h | ⟨x, hx, hx2⟩)
    · exact Or.inl h
    · by_cases hqp : q = p
      · exact Or.inl hqp
      · exact Or.inr ⟨x, ⟨hx, by rw [hx2]; exact hqp⟩, hx2⟩

theorem FileMap.mem_paths_erase (m : FileMap) (p q : List String) :
    q ∈ (m.erase p).paths ↔ (q ∈ m.paths ∧ q ≠ p) := by
  unfold FileMap.paths FileMap.erase
  simp only [List.mem_map, List.mem_filter, decide_eq_true_eq]
  constructor
  · rintro ⟨x, ⟨hx, hx1⟩, hx2⟩
    exact ⟨⟨x, hx, hx2⟩, by rw [← hx2]; exact hx1⟩
  · rintro ⟨⟨x, hx, hx2⟩, hq⟩
    exact ⟨x, ⟨hx, by rw [hx2]; exact hq⟩, hx2⟩

theorem FileMap.mtime_insert_self (m : FileMap) (p : List String) (t : Nat) :
    (m.insert p t).mtime p = some t := by
  unfold FileMap.mtime FileMap.insert
  simp [List.find?_cons]

theorem find?_filter_ne {α : Type} [DecidableEq α] (l : List (α × Nat)) (p q : α)
    (hqp : q ≠ p) :
    (l.filter (fun x => decide (x.1 ≠ p))).find? (fun x => decide (x.1 = q)) =
      l.find? (fun x => decide (x.1 = q)) := by
  induction l with
  | nil => rfl
  | cons a l ih =>
    by_cases ha : a.1 = p
    · have h2 : ¬ a.1 = q := by
        rw [ha]
        exact fun hc => hqp hc.symm
      rw [List.filter_cons_of_neg (by simp [ha]),
          List.find?_cons_of_neg _ (by simp [h2])]
      exact ih
    · rw [List.filter_cons_of_pos (by simp [ha])]
      by_cases h2 : a.1 = q
      · rw [List.find?_cons_of_pos _ (by simp [h2]),
            List.find?_cons_of_pos _ (by simp [h2])]
      · rw [List.find?_cons_of_neg _ (by simp [h2]),
            List.find?_cons_of_neg _ (by simp [h2])]
        exact ih

theorem FileMap.mtime_insert_ne (m : FileMap) (p q : List String) (t : Nat)
    (h : q ≠ p) : (m.insert p t).mtime q = m.mtime q := by
  unfold FileMap.mtime FileMap.insert
  have h1 : decide ((p, t).1 = q) = false := by
    simp
    exact fun hc => h hc.symm
  simp only [List.find?_cons, h1]
  rw [find?_filter_ne m.entries p q h]

theorem FileMap.mtime_erase_ne (m : FileMap) (p q : List String)
    (h : q ≠ p) : (m.erase p).mtime q = m.mtime q := by
  unfold FileMap.mtime FileMap.erase
  rw [find?_filter_ne m.entries p q h]

/-- Deleting the remaining candidates, one `os.remove` at a time
(core.py lines 314-317). -/
def delFold (nt : List (List String)) (m : FileMap) : FileMap :=
  nt.foldl (fun acc p => acc.erase p) m

theorem mem_paths_delFold (nt : List (List String)) (m : FileMap) (q : List String) :
    q ∈ (delFold nt m).paths ↔ (q ∈ m.paths ∧ q ∉ nt) := by
  induction nt generalizing m with
  | nil => simp [delFold]
  | cons p nt ih =>
    simp only [delFold, List.foldl_cons] at ih ⊢
    rw [ih (m.erase p), FileMap.mem_paths_erase]
    simp only [List.mem_cons]
    constructor
    · rintro ⟨⟨h1, h2⟩, h3⟩
      exact ⟨h1, by rintro (h | h); exact h2 h; exact h3 h⟩
    · rintro ⟨h1, h2⟩
      exact ⟨⟨h1, fun hc => h2 (Or.inl hc)⟩, fun hc => h2 (Or.inr hc)⟩

theorem mtime_delFold_not_mem (nt : List (List String)) (m : FileMap)
    (q : List String) (h : q ∉ nt) : (delFold nt m).mtime q = m.mtime q := by
  induction nt generalizing m with
  | nil => rfl
  | cons p nt ih =>
    simp only [List.mem_cons, not_or] at h
    simp only [delFold, List.foldl_cons]
    have hih := ih (m.erase p) h.2
    simp only [delFold] at hih
    rw [hih, FileMap.mtime_erase_ne m p q h.1]

/-! ### Lemmas about one copy-loop iteration -/

theorem stepEntry_nonTargets (isDir : String → Bool) (inv : Bool) (now : Nat)
    (pkgDir outName : String) (st : LoopState) (e : Entry) :
    (stepEntry isDir inv now pkgDir outName st e).nonTargets =
      st.nonTargets.filter (fun q => decide (q ≠ finalDst pkgDir outName e)) := by
  simp only [stepEntry]
  split
  · rfl
  · split
    · split
      · rfl
      · rfl
    · rfl

theorem stepEntry_fs_cases (isDir : String → Bool) (inv : Bool) (now : Nat)
    (pkgDir outName : String) (st : LoopState) (e : Entry) :
    (stepEntry isDir inv now pkgDir outName st e).fs = st.fs ∨
      (stepEntry isDir inv now pkgDir outName st e).fs =
        st.fs.insert (finalDst pkgDir outName e) now := by
  simp only [stepEntry]
  split
  · exact Or.inl rfl
  · split
    · split
      · exact Or.inl rfl
      · exact Or.inr rfl
    · exact Or.inr rfl

theorem stepEntry_skip (isDir : String → Bool) (now : Nat)
    (pkgDir outName : String) (st : LoopState) (e : Entry) (ms md : Nat)
    (h1 : isDir e.src = false)
    (hms : st.fs.mtime (normPath e.src) = some ms)
    (hmd : st.fs.mtime (finalDst pkgDir outName e) = some md)
    (hlt : ms < md) :
    stepEntry isDir false now pkgDir outName st e =
      ⟨st.fs, st.nonTargets.filter
        (fun q => decide (q ≠ finalDst pkgDir outName e)), st.copies⟩ := by
  simp only [stepEntry]
  rw [if_neg (by simp [h1]), hms, hmd]
  simp [hlt]

theorem stepEntry_dir (isDir : String → Bool) (inv : Bool) (now : Nat)
    (pkgDir outName : String) (st : LoopState) (e : Entry)
    (h : isDir e.src = true) :
    stepEntry isDir inv now pkgDir outName st e =
      ⟨st.fs, st.nonTargets.filter
        (fun q => decide (q ≠ finalDst pkgDir outName e)), st.copies⟩ := by
  simp only [stepEntry]
  rw [if_pos h]

theorem stepEntry_dst_mem (isDir : String → Bool) (inv : Bool) (now : Nat)
    (pkgDir outName : String) (st : LoopState) (e : Entry)
    (h1 : isDir e.src = false) :
    finalDst pkgDir outName e ∈ (stepEntry isDir inv now pkgDir outName st e).fs.paths := by
  simp only [stepEntry]
  rw [if_neg (by simp [h1])]
  cases hs : st.fs.mtime (normPath e.src) with
  | none =>
    simp only []
    rw [FileMap.mem_paths_insert]
    exact Or.inl rfl
  | some ms =>
    cases hd : st.fs.mtime (finalDst pkgDir outName e) with
    | none =>
      simp only []
      rw [FileMap.mem_paths_insert]
      exact Or.inl rfl
    | some md =>
      simp only []
      split
      · rw [FileMap.mem_paths_iff_mtime, hd]
        rfl
      · rw [FileMap.mem_paths_insert]
        exact Or.inl rfl

theorem stepEntry_dst_good (isDir : String → Bool) (now : Nat)
    (pkgDir outName : String) (st : LoopState) (e : Entry) (ms : Nat)
    (h1 : isDir e.src = false)
    (hms : st.fs.mtime (normPath e.src) = some ms)
    (hnow : ms < now) :
    ∃ md, (stepEntry isDir false now pkgDir outName st e).fs.mtime
        (finalDst pkgDir outName e) = some md ∧ ms < md := by
  simp only [stepEntry]
  rw [if_neg (by simp [h1]), hms]
  cases hd : st.fs.mtime (finalDst pkgDir outName e) with
  | none =>
    exact ⟨now, by simp [FileMap.mtime_insert_self], hnow⟩
  | some md =>
    simp only []
    split
    · next hcond => exact ⟨md, hd, hcond.2⟩
    · next hcond =>
      refine ⟨now, by simp [FileMap.mtime_insert_self], hnow⟩

theorem stepEntry_good_preserved (isDir : String → Bool) (inv : Bool) (now : Nat)
    (pkgDir outName : String) (st : LoopState) (e : Entry) (p : List String) (x : Nat)
    (hx : x < now) (h : ∃ md, st.fs.mtime p = some md ∧ x < md) :
    ∃ md, (stepEntry isDir inv now pkgDir outName st e).fs.mtime p = some md ∧ x < md := by
  rcases stepEntry_fs_cases isDir inv now pkgDir outName st e with hc | hc
  · rw [hc]; exact h
  · rw [hc]
    by_cases hp : p = finalDst pkgDir outName e
    · subst hp
      exact ⟨now, FileMap.mtime_insert_self _ _ _, hx⟩
    · rw [FileMap.mtime_insert_ne _ _ _ _ hp]
      exact h

theorem stepEntry_mtime_other (isDir : String → Bool) (inv : Bool) (now : Nat)
    (pkgDir outName : String) (st : LoopState) (e : Entry) (p : List String)
    (hp : p ≠ finalDst pkgDir outName e) :
    (stepEntry isDir inv now pkgDir outName st e).fs.mtime p = st.fs.mtime p := by
  rcases stepEntry_fs_cases isDir inv now pkgDir outName st e with hc | hc
  · rw [hc]
  · rw [hc, FileMap.mtime_insert_ne _ _ _ _ hp]

theorem stepEntry_paths_mono (isDir : String → Bool) (inv : Bool) (now : Nat)
    (pkgDir outName : String) (st : LoopState) (e : Entry) (q : List String)
    (h : q ∈ st.fs.paths) :
    q ∈ (stepEntry isDir inv now pkgDir outName st e).fs.paths := by
  rcases stepEntry_fs_cases isDir inv now pkgDir outName st e with hc | hc
  · rw [hc]; exact h
  · rw [hc, FileMap.mem_paths_insert]
    exact Or.inr h

theorem stepEntry_paths_sub (isDir : String → Bool) (inv : Bool) (now : Nat)
    (pkgDir outName : String) (st : LoopState) (e : Entry) (q : List String)
    (h : q ∈ (stepEntry isDir inv now pkgDir outName st e).fs.paths) :
    q ∈ st.fs.paths ∨ q = finalDst pkgDir outName e := by
  rcases stepEntry_fs_cases isDir inv now pkgDir outName st e with hc | hc
  · rw [hc] at h; exact Or.inl h
  · rw [hc, FileMap.mem_paths_insert] at h
    exact h.symm.imp id id |>.symm.imp id id |>.elim (fun h => Or.inr h) (fun h => Or.inl h)

/-! ### Lemmas about the whole copy loop -/

theorem foldStep_nonTargets_mem (isDir : String → Bool) (inv : Bool) (now : Nat)
    (pkgDir outName : String) (es : List Entry) (p : List String) :
    ∀ st : LoopState,
      (p ∈ (es.foldl (stepEntry isDir inv now pkgDir outName) st).nonTargets ↔
        (p ∈ st.nonTargets ∧ ∀ e ∈ es, p ≠ finalDst pkgDir outName e)) := by
  induction es with
  | nil => intro st; simp
  | cons e es ih =>
    intro st
    simp only [List.foldl_cons]
    rw [ih, stepEntry_nonTargets]
    simp only [List.mem_filter, decide_eq_true_eq, List.mem_cons]
    constructor
    · rintro ⟨⟨h1, h2⟩, h3⟩
      refine ⟨h1, ?_⟩
      rintro e' (rfl | he')
      · exact h2
      · exact h3 e' he'
    · rintro ⟨h1, h2⟩
      exact ⟨⟨h1, h2 e (Or.inl rfl)⟩, fun e' he' => h2 e' (Or.inr he')⟩

theorem foldStep_paths_mono (isDir : String → Bool) (inv : Bool) (now : Nat)
    (pkgDir outName : String) (es : List Entry) (q : List String) :
    ∀ st : LoopState, q ∈ st.fs.paths →
      q ∈ (es.foldl (stepEntry isDir inv now pkgDir outName) st).fs.paths := by
  induction es with
  | nil => intro st h; exact h
  | cons e es ih =>
    intro st h
    exact ih _ (stepEntry_paths_mono isDir inv now pkgDir outName st e q h)

theorem stepEntry_paths_sub_file (isDir : String → Bool) (inv : Bool) (now : Nat)
    (pkgDir outName : String) (st : LoopState) (e : Entry) (q : List String)
    (h : q ∈ (stepEntry isDir inv now pkgDir outName st e).fs.paths) :
    q ∈ st.fs.paths ∨ (q = finalDst pkgDir outName e ∧ isDir e.src = false) := by
  cases hd : isDir e.src with
  | true =>
    rw [stepEntry_dir isDir inv now pkgDir outName st e hd] at h
    exact Or.inl h
  | false =>
    rcases stepEntry_paths_sub isDir inv now pkgDir outName st e q h with h1 | h1
    · exact Or.inl h1
    · exact Or.inr ⟨h1, rfl⟩

theorem foldStep_paths_sub (isDir : String → Bool) (inv : Bool) (now : Nat)
    (pkgDir outName : String) (es : List Entry) (q : List String) :
    ∀ st : LoopState,
      q ∈ (es.foldl (stepEntry isDir inv now pkgDir outName) st).fs.paths →
      q ∈ st.fs.paths ∨
        ∃ e ∈ es, q = finalDst pkgDir outName e ∧ isDir e.src = false := by
  induction es with
  | nil => intro st h; exact Or.inl h
  | cons e es ih =>
    intro st h
    rcases ih _ h with h1 | ⟨e', he', h2⟩
    · rcases stepEntry_paths_sub_file isDir inv now pkgDir outName st e q h1 with h3 | h3
      · exact Or.inl h3
      · exact Or.inr ⟨e, List.mem_cons_self _ _, h3⟩
    · exact Or.inr ⟨e', List.mem_cons_of_mem _ he', h2⟩

theorem foldStep_mtime_other (isDir : String → Bool) (inv : Bool) (now : Nat)
    (pkgDir outName : String) (es : List Entry) (q : List String)
    (h : ∀ e ∈ es, q ≠ finalDst pkgDir outName e) :
    ∀ st : LoopState,
      (es.foldl (stepEntry isDir inv now pkgDir outName) st).fs.mtime q =
        st.fs.mtime q := by
  induction es with
  | nil => intro st; rfl
  | cons e es ih =>
    intro st
    simp only [List.foldl_cons]
    rw [ih (fun e' he' => h e' (List.mem_cons_of_mem _ he')),
        stepEntry_mtime_other isDir inv now pkgDir outName st e q
          (h e (List.mem_cons_self _ _))]

theorem foldStep_good_preserved (isDir : String → Bool) (inv : Bool) (now : Nat)
    (pkgDir outName : String) (es : List Entry) (p : List String) (x : Nat)
    (hx : x < now) :
    ∀ st : LoopState, (∃ md, st.fs.mtime p = some md ∧ x < md) →
      ∃ md, (es.foldl (stepEntry isDir inv now pkgDir outName) st).fs.mtime p =
        some md ∧ x < md := by
  induction es with
  | nil => intro st h; exact h
  | cons e es ih =>
    intro st h
    exact ih _ (stepEntry_good_preserved isDir inv now pkgDir outName st e p x hx h)

theorem foldStep_dst_mem (isDir : String → Bool) (inv : Bool) (now : Nat)
    (pkgDir outName : String) (es : List Entry) :
    ∀ st : LoopState, ∀ e ∈ es, isDir e.src = false →
      finalDst pkgDir outName e ∈
        (es.foldl (stepEntry isDir inv now pkgDir outName) st).fs.paths := by
  induction es with
  | nil => intro st e he; simp at he
  | cons e0 es ih =>
    intro st e he hd
    simp only [List.foldl_cons]
    rcases List.mem_cons.mp he with rfl | he'
    · exact foldStep_paths_mono isDir inv now pkgDir outName es _ _
        (stepEntry_dst_mem isDir inv now pkgDir outName st e hd)
    · exact ih _ e he' hd

theorem foldStep_ready (isDir : String → Bool) (now : Nat)
    (pkgDir outName : String) (es : List Entry)
    (hsep : ∀ e ∈ es, isDir e.src = false →
      ∀ e' ∈ es, normPath e.src ≠ finalDst pkgDir outName e') :
    ∀ st : LoopState,
      (∀ e ∈ es, isDir e.src = false →
        ∃ ms, st.fs.mtime (normPath e.src) = some ms ∧ ms < now) →
      ∀ e ∈ es, isDir e.src = false → ∃ ms md,
        (es.foldl (stepEntry isDir false now pkgDir outName) st).fs.mtime
          (normPath e.src) = some ms ∧
        (es.foldl (stepEntry isDir false now pkgDir outName) st).fs.mtime
          (finalDst pkgDir outName e) = some md ∧ ms < md := by
  induction es with
  | nil => intro st _ e he; simp at he
  | cons e0 es ih =>
    intro st hsrc e he hd
    simp only [List.foldl_cons]
    rcases List.mem_cons.mp he with rfl | he'
    · obtain ⟨ms, hms, hnow⟩ := hsrc e (List.mem_cons_self _ _) hd
      have hgood := stepEntry_dst_good isDir now pkgDir outName st e ms hd hms hnow
      obtain ⟨md, hmd, hlt⟩ := foldStep_good_preserved isDir false now pkgDir outName
        es (finalDst pkgDir outName e) ms hnow _ hgood
      refine ⟨ms, md, ?_, hmd, hlt⟩
      rw [foldStep_mtime_other isDir false now pkgDir outName es _
          (fun e' he' => hsep e (List.mem_cons_self _ _) hd e'
            (List.mem_cons_of_mem _ he')),
        stepEntry_mtime_other isDir false now pkgDir outName st e _
          (hsep e (List.mem_cons_self _ _) hd e (List.mem_cons_self _ _))]
      exact hms
    · refine ih
        (fun x hx hdx y hy => hsep x (List.mem_cons_of_mem _ hx) hdx y
          (List.mem_cons_of_mem _ hy))
        _ ?_ e he' hd
      intro x hx hdx
      obtain ⟨ms, hms, hnow⟩ := hsrc x (List.mem_cons_of_mem _ hx) hdx
      refine ⟨ms, ?_, hnow⟩
      rw [stepEntry_mtime_other isDir false now pkgDir outName st e0 _
          (hsep x (List.mem_cons_of_mem _ hx) hdx e0 (List.mem_cons_self _ _))]
      exact hms

theorem foldStep_no_copy (isDir : String → Bool) (now : Nat)
    (pkgDir outName : String) (es : List Entry) :
    ∀ st : LoopState,
      (∀ e ∈ es, isDir e.src = true ∨
        ∃ ms md, st.fs.mtime (normPath e.src) = some ms ∧
          st.fs.mtime (finalDst pkgDir outName e) = some md ∧ ms < md) →
      (es.foldl (stepEntry isDir false now pkgDir outName) st).fs = st.fs ∧
      (es.foldl (stepEntry isDir false now pkgDir outName) st).copies = st.copies := by
  induction es with
  | nil => intro st _; exact ⟨rfl, rfl⟩
  | cons e0 es ih =>
    intro st hready
    cases hd : isDir e0.src with
    | true =>
      have hdir := stepEntry_dir isDir false now pkgDir outName st e0 hd
      simp only [List.foldl_cons, hdir]
      exact ih _ (fun x hx => hready x (List.mem_cons_of_mem _ hx))
    | false =>
      rcases hready e0 (List.mem_cons_self _ _) with hd' | ⟨ms, md, hms, hmd, hlt⟩
      · rw [hd'] at hd
        exact Bool.noConfusion hd
      · have hskip := stepEntry_skip isDir now pkgDir outName st e0 ms md hd hms hmd hlt
        simp only [List.foldl_cons, hskip]
        exact ih _ (fun x hx => hready x (List.mem_cons_of_mem _ hx))

/-! ### Staging-phase lemmas -/

theorem startsWithComps_append (l m : List String) :
    startsWithComps l (l ++ m) = true := by
  induction l with
  | nil => rfl
  | cons a l ih => simp [startsWithComps, ih]

theorem finalDst_decomp (pkgDir outName : String) (e : Entry) :
    finalDst pkgDir outName e =
      normPath pkgDir ++ normPath outName ++ normPath (finalRelDst e) := by
  unfold finalDst
  rw [normPath_slash_append (pkgDir ++ "/" ++ outName) (finalRelDst e),
      normPath_slash_append pkgDir outName]

theorem isUnder_finalDst (pkgDir outName : String) (e : Entry)
    (hout : cleanComp outName = true) :
    isUnder (normPath pkgDir) (finalDst pkgDir outName e) = true := by
  rw [finalDst_decomp, normPath_cleanComp outName hout]
  have h1 : startsWithComps (normPath pkgDir)
      (normPath pkgDir ++ [outName] ++ normPath (finalRelDst e)) = true := by
    rw [List.append_assoc]
    exact startsWithComps_append _ _
  have h2 : normPath pkgDir ++ [outName] ++ normPath (finalRelDst e) ≠
      normPath pkgDir := by
    intro hc
    have hlen := congrArg List.length hc
    simp [List.length_append] at hlen
  unfold isUnder
  rw [h1, decide_eq_true h2]
  rfl

theorem runStage_eq (isDir : String → Bool) (noClean inv : Bool) (now : Nat)
    (pkgDir outName : String) (entries : List Entry) (fs0 : FileMap) :
    runStage isDir noClean inv now pkgDir outName entries fs0 =
      ⟨delFold (entries.foldl (stepEntry isDir inv now pkgDir outName)
          ⟨fs0, collectNonTargets noClean pkgDir fs0, 0⟩).nonTargets
        (entries.foldl (stepEntry isDir inv now pkgDir outName)
          ⟨fs0, collectNonTargets noClean pkgDir fs0, 0⟩).fs,
       (entries.foldl (stepEntry isDir inv now pkgDir outName)
          ⟨fs0, collectNonTargets noClean pkgDir fs0, 0⟩).copies,
       (entries.foldl (stepEntry isDir inv now pkgDir outName)
          ⟨fs0, collectNonTargets noClean pkgDir fs0, 0⟩).nonTargets.length⟩ := rfl

theorem stage_clean_removes (isDir : String → Bool) (inv : Bool) (now : Nat)
    (pkgDir outName : String) (entries : List Entry) (fs0 : FileMap)
    (p : List String) (hp : p ∈ fs0.paths)
    (hunder : isUnder (normPath pkgDir) p = true)
    (hnd : ∀ e ∈ entries, p ≠ finalDst pkgDir outName e) :
    p ∉ (runStage isDir false inv now pkgDir outName entries fs0).fs.paths := by
  rw [runStage_eq]
  intro hmem
  rw [mem_paths_delFold] at hmem
  refine hmem.2 ?_
  rw [foldStep_nonTargets_mem]
  refine ⟨?_, hnd⟩
  simp only [collectNonTargets]
  rw [if_neg Bool.false_ne_true, List.mem_filter]
  exact ⟨hp, hunder⟩

theorem stage_noclean_keeps (isDir : String → Bool) (inv : Bool) (now : Nat)
    (pkgDir outName : String) (entries : List Entry) (fs0 : FileMap)
    (p : List String) (hp : p ∈ fs0.paths) :
    p ∈ (runStage isDir true inv now pkgDir outName entries fs0).fs.paths := by
  rw [runStage_eq]
  rw [mem_paths_delFold]
  constructor
  · exact foldStep_paths_mono isDir inv now pkgDir outName entries p _ hp
  · intro hc
    rw [foldStep_nonTargets_mem] at hc
    simp [collectNonTargets] at hc

theorem stage_paths_iff (isDir : String → Bool) (inv : Bool) (now : Nat)
    (pkgDir outName : String) (entries : List Entry) (fs0 : FileMap)
    (hout : cleanComp outName = true) (p : List String) :
    (p ∈ (runStage isDir false inv now pkgDir outName entries fs0).fs.paths ∧
        isUnder (normPath pkgDir) p = true) ↔
      (p ∈ (entries.filter (fun e => !isDir e.src)).map (finalDst pkgDir outName) ∨
        (p ∈ entries.map (finalDst pkgDir outName) ∧ p ∈ fs0.paths)) := by
  constructor
  · rintro ⟨hmem, hunder⟩
    rw [runStage_eq, mem_paths_delFold] at hmem
    obtain ⟨hfold, hnt⟩ := hmem
    rcases foldStep_paths_sub isDir inv now pkgDir outName entries p _ hfold with
      h0 | ⟨e, he, hdst, hdf⟩
    · right
      refine ⟨?_, h0⟩
      by_contra hnd
      refine hnt ?_
      rw [foldStep_nonTargets_mem]
      refine ⟨?_, ?_⟩
      · simp only [collectNonTargets]
        rw [if_neg Bool.false_ne_true, List.mem_filter]
        exact ⟨h0, hunder⟩
      · intro e' he' hc
        exact hnd (List.mem_map.mpr ⟨e', he', hc.symm⟩)
    · left
      exact List.mem_map.mpr ⟨e, List.mem_filter.mpr ⟨he, by simp [hdf]⟩, hdst.symm⟩
  · intro h
    have hsome : ∃ e ∈ entries, p = finalDst pkgDir outName e := by
      rcases h with h | ⟨h, -⟩
      · obtain ⟨e, he, hdst⟩ := List.mem_map.mp h
        exact ⟨e, (List.mem_filter.mp he).1, hdst.symm⟩
      · obtain ⟨e, he, hdst⟩ := List.mem_map.mp h
        exact ⟨e, he, hdst.symm⟩
    obtain ⟨e0, he0, hp0⟩ := hsome
    have hnt : p ∉ (entries.foldl (stepEntry isDir inv now pkgDir outName)
        ⟨fs0, collectNonTargets false pkgDir fs0, 0⟩).nonTargets := by
      intro hc
      rw [foldStep_nonTargets_mem] at hc
      exact hc.2 e0 he0 hp0
    refine ⟨?_, by rw [hp0]; exact isUnder_finalDst pkgDir outName e0 hout⟩
    rw [runStage_eq, mem_paths_delFold]
    refine ⟨?_, hnt⟩
    rcases h with h | ⟨-, hfs0⟩
    · obtain ⟨e, he, hdst⟩ := List.mem_map.mp h
      obtain ⟨he1, he2⟩ := List.mem_filter.mp he
      rw [← hdst]
      exact foldStep_dst_mem isDir inv now pkgDir outName entries _ e he1
        (by simpa using he2)
    · exact foldStep_paths_mono isDir inv now pkgDir outName entries p _ hfs0

/-- Claim C1, amended.  After a clean-enabled run, every regular file
present before the run under the staging directory that is not the
computed (basename-appended) destination of ANY resolved mapping entry —
directory entries included, since the copy loop discards an entry's
destination from the deletion-candidate set (line 287) before the
directory skip (line 293) — has been deleted; with cleaning disabled
every file present before the run is preserved; and after a clean run the
set of files under the staging directory is exactly the set of copy
(file-source) entry destinations together with those pre-existing files
sitting at some entry's computed destination. -/
theorem c1_orphan_removal (isDir : String → Bool) (inv : Bool) (now : Nat)
    (pkgDir outName : String) (entries : List Entry) (fs0 : FileMap)
    (hout : cleanComp outName = true) :
    (∀ p, p ∈ fs0.paths → isUnder (normPath pkgDir) p = true →
        (∀ e ∈ entries, p ≠ finalDst pkgDir outName e) →
        p ∉ (runStage isDir false inv now pkgDir outName entries fs0).fs.paths) ∧
    (∀ p, p ∈ fs0.paths →
        p ∈ (runStage isDir true inv now pkgDir outName entries fs0).fs.paths) ∧
    (∀ p, (p ∈ (runStage isDir false inv now pkgDir outName entries fs0).fs.paths ∧
        isUnder (normPath pkgDir) p = true) ↔
        (p ∈ (entries.filter (fun e => !isDir e.src)).map (finalDst pkgDir outName) ∨
          (p ∈ entries.map (finalDst pkgDir outName) ∧ p ∈ fs0.paths))) :=
  ⟨fun p hp hu hnd => stage_clean_removes isDir inv now pkgDir outName entries fs0 p hp hu hnd,
   fun p hp => stage_noclean_keeps isDir inv now pkgDir outName entries fs0 p hp,
   fun p => stage_paths_iff isDir inv now pkgDir outName entries fs0 hout p⟩

/-- A source file that exists and predates the run: `os.path.getmtime`
succeeds on it and returns a time before the copy-loop clock. -/
def srcFresh (fs : FileMap) (now : Nat) (e : Entry) : Bool :=
  match fs.mtime (normPath e.src) with
  | some ms => decide (ms < now)
  | none => false

/-- Claim C3.  Running the Stager twice in succession with the same
resolved mapping (directory entries included) and no change to any source
file performs zero copy operations on the second run — every resolved
file entry is skipped because the destination's modification time is
newer than the source's, and directory entries are always skipped as
non-copy operations — and deletes zero files (the deletion-candidate set
is emptied exactly by the current destinations). -/
theorem c3_stager_idempotent (isDir : String → Bool) (now1 now2 : Nat)
    (pkgDir outName : String) (entries : List Entry) (fs0 : FileMap)
    (hout : cleanComp outName = true)
    (hsrc : ∀ e ∈ entries, isDir e.src = false → srcFresh fs0 now1 e = true)
    (hloc : ∀ e ∈ entries, isDir e.src = false →
      isUnder (normPath pkgDir) (normPath e.src) = false) :
    (runStage isDir false false now2 pkgDir outName entries
      (runStage isDir false false now1 pkgDir outName entries fs0).fs).copies = 0 ∧
    (runStage isDir false false now2 pkgDir outName entries
      (runStage isDir false false now1 pkgDir outName entries fs0).fs).deletions = 0 := by
  have hsep : ∀ e ∈ entries, isDir e.src = false → ∀ e' ∈ entries,
      normPath e.src ≠ finalDst pkgDir outName e' := by
    intro e he hd e' he' hc
    have h1 := isUnder_finalDst pkgDir outName e' hout
    rw [← hc, hloc e he hd] at h1
    exact Bool.false_ne_true h1
  have hsrc' : ∀ e ∈ entries, isDir e.src = false →
      ∃ ms, fs0.mtime (normPath e.src) = some ms ∧ ms < now1 := by
    intro e he hd
    have h := hsrc e he hd
    unfold srcFresh at h
    cases hm : fs0.mtime (normPath e.src) with
    | none => rw [hm] at h; simp at h
    | some ms =>
      rw [hm] at h
      simp at h
      exact ⟨ms, rfl, h⟩
  have hready1 := foldStep_ready isDir now1 pkgDir outName entries hsep
    ⟨fs0, collectNonTargets false pkgDir fs0, 0⟩ (fun e he hd => hsrc' e he hd)
  have hnt1src : ∀ e ∈ entries, isDir e.src = false → normPath e.src ∉
      (entries.foldl (stepEntry isDir false now1 pkgDir outName)
        ⟨fs0, collectNonTargets false pkgDir fs0, 0⟩).nonTargets := by
    intro e he hd hc
    rw [foldStep_nonTargets_mem] at hc
    have h0 := hc.1
    simp only [collectNonTargets] at h0
    rw [if_neg Bool.false_ne_true, List.mem_filter] at h0
    rw [hloc e he hd] at h0
    exact Bool.false_ne_true h0.2
  have hnt1dst : ∀ e ∈ entries, finalDst pkgDir outName e ∉
      (entries.foldl (stepEntry isDir false now1 pkgDir outName)
        ⟨fs0, collectNonTargets false pkgDir fs0, 0⟩).nonTargets := by
    intro e he hc
    rw [foldStep_nonTargets_mem] at hc
    exact hc.2 e he rfl
  have hready : ∀ e ∈ entries, isDir e.src = false → ∃ ms md,
      (runStage isDir false false now1 pkgDir outName entries fs0).fs.mtime
        (normPath e.src) = some ms ∧
      (runStage isDir false false now1 pkgDir outName entries fs0).fs.mtime
        (finalDst pkgDir outName e) = some md ∧ ms < md := by
    intro e he hd
    obtain ⟨ms, md, h1, h2, h3⟩ := hready1 e he hd
    refine ⟨ms, md, ?_, ?_, h3⟩
    · rw [runStage_eq, mtime_delFold_not_mem _ _ _ (hnt1src e he hd)]
      exact h1
    · rw [runStage_eq, mtime_delFold_not_mem _ _ _ (hnt1dst e he)]
      exact h2
  constructor
  · have h := foldStep_no_copy isDir now2 pkgDir outName entries
      ⟨(runStage isDir false false now1 pkgDir outName entries fs0).fs,
        collectNonTargets false pkgDir
          (runStage isDir false false now1 pkgDir outName entries fs0).fs, 0⟩
      (by
        intro e he
        cases hd : isDir e.src with
        | true => exact Or.inl rfl
        | false => exact Or.inr (hready e he hd))
    rw [runStage_eq]
    exact h.2
  · rw [runStage_eq]
    have hnil : (entries.foldl (stepEntry isDir false now2 pkgDir outName)
        ⟨(runStage isDir false false now1 pkgDir outName entries fs0).fs,
          collectNonTargets false pkgDir
            (runStage isDir false false now1 pkgDir outName entries fs0).fs,
          0⟩).nonTargets = [] := by
      rw [List.eq_nil_iff_forall_not_mem]
      intro p hp
      rw [foldStep_nonTargets_mem] at hp
      obtain ⟨hp0, hpnd⟩ := hp
      simp only [collectNonTargets] at hp0
      rw [if_neg Bool.false_ne_true, List.mem_filter] at hp0
      have hmem := (stage_paths_iff isDir false now1 pkgDir outName entries fs0
        hout p).mp ⟨hp0.1, hp0.2⟩
      have hmap : p ∈ entries.map (finalDst pkgDir outName) := by
        rcases hmem with h | ⟨h, -⟩
        · obtain ⟨e, he, hdst⟩ := List.mem_map.mp h
          exact List.mem_map.mpr ⟨e, (List.mem_filter.mp he).1, hdst⟩
        · exact h
      obtain ⟨e, he, hdst⟩ := List.mem_map.mp hmap
      exact hpnd e he hdst.symm
    rw [hnil]
    rfl

/-! ### Mapping-resolution lemmas and claims -/

/-- An entry the glob-expansion loop accepts without raising: either no
wildcard in the source, or a '/'-terminated (validated) destination. -/
def entryOk (p : String × String) : Bool :=
  !hasWildcard p.1 || endsSlash (validateEntry p).2

theorem globOne_ok (fs : ResFS) (p : String × String) (h : entryOk p = true) :
    ∃ es, globOne fs (validateEntry p).1 (validateEntry p).2 = .ok es := by
  unfold entryOk at h
  unfold globOne
  by_cases hw : hasWildcard (validateEntry p).1 = true
  · have hw' : hasWildcard p.1 = true := by
      unfold validateEntry at hw
      by_cases he : p.2 = "" <;> simp [he] at hw <;> exact hw
    rw [hw', Bool.not_true, Bool.false_or] at h
    rw [if_pos hw, if_neg (by simp [h])]
    cases starsSplit (validateEntry p).1.data with
    | some pfx => exact ⟨_, rfl⟩
    | none => exact ⟨_, rfl⟩
  · rw [if_neg hw]
    exact ⟨_, rfl⟩

/-- Claim C5, amended.  A wildcard mapping entry whose destination is
non-empty and does not end in '/' aborts resolution with the message of
core.py line 230, naming that entry's source — whatever entries follow it
(they are never resolved).  An empty destination does not abort: it is
first normalized to '/'. -/
theorem c5_wildcard_dest_guard (fs : ResFS) (pre rest : List (String × String))
    (src dst : String) (hw : hasWildcard src = true) (hne : dst ≠ "")
    (hs : endsSlash dst = false)
    (hpre : ∀ p ∈ pre, entryOk p = true) :
    globPhase fs (validate (pre ++ (src, dst) :: rest)) =
      .error ("fatal: Globbed source path must be directory: " ++ src) := by
  induction pre with
  | nil =>
    simp only [List.nil_append, validate, List.map_cons]
    have hv : validateEntry (src, dst) = (src, dst) := by
      unfold validateEntry
      rw [if_neg (by simpa using hne)]
    rw [hv]
    show (globOne fs src dst).bind _ = _
    have hgo : globOne fs src dst =
        .error ("fatal: Globbed source path must be directory: " ++ src) := by
      unfold globOne
      rw [if_pos hw, if_pos hs]
    rw [hgo]
    rfl
  | cons p pre ih =>
    simp only [List.cons_append, validate, List.map_cons] at ih ⊢
    obtain ⟨es, hes⟩ := globOne_ok fs p (hpre p (List.mem_cons_self _ _))
    show (globOne fs (validateEntry p).1 (validateEntry p).2).bind _ = _
    rw [hes]
    show (globPhase fs (List.map validateEntry (pre ++ (src, dst) :: rest))).bind _ = _
    have ih' := ih (fun q hq => hpre q (List.mem_cons_of_mem _ hq))
    simp only [validate] at ih'
    rw [ih']
    rfl

theorem normPath_append_slash_end (x : String) : normPath (x ++ "/") = normPath x := by
  have h : (x ++ "/").data = x.data ++ '/' :: ([] : List Char) := by
    rw [data_append]
  unfold normPath
  rw [h, normChars_append_slash, normChars_nil, List.append_nil]

/-- The normalized staging-relative destination of an unrolled directory
file: the original destination's components followed by the file's path
relative to the source directory. -/
theorem unrolled_finalRelDst (dst key root f : String) (cs : List String)
    (hcs : ∀ c ∈ cs, cleanComp c = true) (hf : cleanComp f = true) :
    normPath (finalRelDst ⟨pjoin root f, pjoin dst (joinRel cs) ++ "/", key⟩) =
      normPath dst ++ cs ++ [f] := by
  unfold finalRelDst
  rw [if_pos (endsSlash_append_slash _)]
  simp only []
  rw [basename_pjoin root f hf]
  rw [normPath_append_of_endsSlash _ f (endsSlash_append_slash _)]
  rw [normPath_append_slash_end]
  rw [normPath_pjoin dst (joinRel cs) (joinRel_head_not_slash cs hcs)]
  rw [normPath_joinRel cs hcs, normPath_cleanComp f hf]

/-- The files `os.walk` finds under a directory: each as (component path
of its directory relative to the top, file name). -/
def walkFiles (fs : ResFS) (src : String) : List (List String × String) :=
  (fs.walk src).flatMap (fun w => w.2.map (fun f => (w.1, f)))

/-- Well-formedness of an `os.walk` result: every entry name is a clean
path component, no directory is visited twice, and the file names within
one directory are distinct — guarantees of the real `os.walk`. -/
def walkWf (ws : List (List String × List String)) : Bool :=
  ws.all (fun w => w.1.all cleanComp && w.2.all cleanComp && decide w.2.Nodup) &&
    decide ((ws.map (fun w => w.1)).Nodup)

theorem unroll_map_eq (src dst key : String) :
    ∀ ws : List (List String × List String),
      (∀ w ∈ ws, (∀ c ∈ w.1, cleanComp c = true) ∧ (∀ f ∈ w.2, cleanComp f = true)) →
      ((ws.flatMap (fun w => w.2.map (fun f =>
          (⟨pjoin (joinComps src w.1) f, pjoin dst (joinRel w.1) ++ "/", key⟩ : Entry)))).map
        (fun e => (e.src, normPath (finalRelDst e))) =
      (ws.flatMap (fun w => w.2.map (fun f => (w.1, f)))).map
        (fun w => (pjoin (joinComps src w.1) w.2, normPath dst ++ w.1 ++ [w.2]))) := by
  intro ws
  induction ws with
  | nil => intro _; rfl
  | cons w ws ih =>
    intro hws
    simp only [List.flatMap_cons, List.map_append]
    rw [ih (fun x hx => hws x (List.mem_cons_of_mem _ hx))]
    congr 1
    rw [List.map_map, List.map_map]
    apply List.map_congr_left
    intro f hf2
    simp only [Function.comp]
    obtain ⟨hcs, hfs⟩ := hws w (List.mem_cons_self _ _)
    rw [unrolled_finalRelDst dst key (joinComps src w.1) f w.1 hcs (hfs f hf2)]

theorem walkFiles_relpaths_nodup :
    ∀ ws : List (List String × List String),
      (∀ w ∈ ws, w.2.Nodup) → ((ws.map (fun w => w.1)).Nodup) →
      ((ws.flatMap (fun w => w.2.map (fun f => (w.1, f)))).map
        (fun w => w.1 ++ [w.2])).Nodup := by
  intro ws
  induction ws with
  | nil => intro _ _; simp
  | cons w ws ih =>
    intro hnd hroots
    rw [List.map_cons, List.nodup_cons] at hroots
    simp only [List.flatMap_cons, List.map_append, List.map_map]
    rw [List.nodup_append]
    refine ⟨?_, ?_, ?_⟩
    · apply List.Nodup.map
      · intro f1 f2 hf
        simp only [Function.comp] at hf
        simpa using hf
      · exact hnd w (List.mem_cons_self _ _)
    · have := ih (fun x hx => hnd x (List.mem_cons_of_mem _ hx)) hroots.2
      simpa [List.map_map] using this
    · intro x hx1 hx2
      obtain ⟨f, hf, hfx⟩ := List.mem_map.mp hx1
      simp only [Function.comp] at hfx
      obtain ⟨pr, hpr, hprx⟩ := List.mem_map.mp hx2
      obtain ⟨w', hw', hpr'⟩ := List.mem_flatMap.mp hpr
      obtain ⟨f', hf', hff'⟩ := List.mem_map.mp hpr'
      rw [← hff'] at hprx
      simp only [] at hprx
      rw [← hfx] at hprx
      have hlen : [f'].length = [f].length := rfl
      have := List.append_inj' hprx.symm rfl
      refine hroots.1 ?_
      rw [this.1]
      exact List.mem_map.mpr ⟨w', hw', rfl⟩

/-- Claim C6.  For a mapping entry whose source is an existing directory
(no wildcards, not a regular file), the unrolled copy set contains exactly
one entry per file `os.walk` transitively finds under the source, whose
own source is that file's path and whose staging-relative destination
(after the copy loop appends the basename) normalizes to the entry's
original destination followed by the file's path relative to the source
directory; the relative paths of those files are pairwise distinct, so
there is exactly one entry per contained file.  The original directory
entry itself stays in the mapping but is skipped as a non-copy operation,
so the unrolled entries are the copy set. -/
theorem c6_directory_unroll (fs : ResFS) (src dst key : String)
    (hf : fs.isFile src = false)
    (hwf : walkWf (fs.walk src) = true) :
    ((unrollOne fs ⟨src, dst, key⟩).map
        (fun e => (e.src, normPath (finalRelDst e))) =
      (walkFiles fs src).map
        (fun w => (pjoin (joinComps src w.1) w.2, normPath dst ++ w.1 ++ [w.2]))) ∧
    ((walkFiles fs src).map (fun w => w.1 ++ [w.2])).Nodup := by
  unfold walkWf at hwf
  rw [Bool.and_eq_true] at hwf
  obtain ⟨hall0, hroots0⟩ := hwf
  rw [List.all_eq_true] at hall0
  rw [decide_eq_true_eq] at hroots0
  have hall : ∀ w ∈ fs.walk src, (∀ c ∈ w.1, cleanComp c = true) ∧
      (∀ f ∈ w.2, cleanComp f = true) ∧ w.2.Nodup := by
    intro w hw
    have h := hall0 w hw
    rw [Bool.and_eq_true, Bool.and_eq_true] at h
    refine ⟨?_, ?_, ?_⟩
    · rw [← List.all_eq_true]
      exact h.1.1
    · rw [← List.all_eq_true]
      exact h.1.2
    · exact of_decide_eq_true h.2
  constructor
  · unfold unrollOne
    rw [if_neg (by simp [hf])]
    unfold walkFiles
    exact unroll_map_eq src dst key (fs.walk src)
      (fun w hw => ⟨(hall w hw).1, (hall w hw).2.1⟩)
  · unfold walkFiles
    exact walkFiles_relpaths_nodup (fs.walk src)
      (fun w hw => (hall w hw).2.2) hroots0

/-- Claim C7, amended.  A mapping entry with no wildcard in the source and
a plain-file source resolves to exactly the one entry `[src, dst, src]`:
the glob phase passes it through and the unroll phase adds nothing.  The
destination equals the input destination whenever the input destination
is non-empty; an empty destination is first normalized to '/'. -/
theorem c7_plain_file_entry (fs : ResFS) (src dst : String)
    (hw : hasWildcard src = false) (hf : fs.isFile src = true) (hne : dst ≠ "") :
    resolveMapping fs [(src, dst)] = .ok [⟨src, dst, src⟩] ∧
    globOne fs src dst = .ok [⟨src, dst, src⟩] ∧
    unrollOne fs ⟨src, dst, src⟩ = [] := by
  have hgo : globOne fs src dst = .ok [⟨src, dst, src⟩] := by
    unfold globOne
    rw [if_neg (by simp [hw])]
  have hun : unrollOne fs ⟨src, dst, src⟩ = [] := by
    unfold unrollOne
    rw [if_pos hf]
  refine ⟨?_, hgo, hun⟩
  have hv : validateEntry (src, dst) = (src, dst) := by
    unfold validateEntry
    rw [if_neg (by simpa using hne)]
  have hgp : globPhase fs [(src, dst)] = .ok [⟨src, dst, src⟩] := by
    show (globOne fs src dst).bind _ = _
    rw [hgo]
    rfl
  unfold resolveMapping validate
  rw [List.map_cons, hv, List.map_nil, hgp]
  show Except.ok ([⟨src, dst, src⟩] ++ [⟨src, dst, src⟩].flatMap (unrollOne fs)) = _
  rw [List.flatMap_cons, List.flatMap_nil, hun]
  simp

/-- Concrete filesystem used by witnesses and counterexamples: a few plain
files, one glob pattern matching one file, one directory with a file at
its top and one in a subdirectory. -/
def sampleFS : ResFS :=
  ⟨fun s => decide (s = "f.txt") || decide (s = "src/a.txt") ||
      decide (s = "mydir/f1") || decide (s = "mydir/sub/f2"),
   fun s => if s = "*" then ["src/a.txt"] else [],
   fun s => if s = "src/**/*.h" then ["src/x/y.h"] else [],
   fun s => if s = "mydir" then [([], ["f1"]), (["sub"], ["f2"])] else []⟩

/-- Claim C5, counterexample.  The mapping entry `("*", "")` has a wildcard
source and a destination that does not end in a path separator, yet
`package` does not abort: lines 188-194 first substitute '/' for the
empty destination, and the run completes. -/
theorem c5_counterexample :
    hasWildcard "*" = true ∧ endsSlash "" = false ∧
    (packageModel ⟨"release", false, false, false, false, false, false, false, none⟩
      "myapp" "1.2.3" "Linux-6.1" "out" sampleFS (fun _ => false) false (some 0)
      [("*", "")] ⟨[(["src", "a.txt"], 5)]⟩ 7 none).result.isOk = true := by
  decide

/-- Claim C7, counterexample.  The non-wildcard plain-file entry
`("f.txt", "")` resolves to the single entry with destination "/" — not
the input destination "" — because lines 188-194 normalize the empty
destination. -/
theorem c7_counterexample :
    hasWildcard "f.txt" = false ∧ sampleFS.isFile "f.txt" = true ∧
    resolveMapping sampleFS [("f.txt", "")] = .ok [⟨"f.txt", "/", "f.txt"⟩] ∧
    ("/" : String) ≠ "" := by
  refine ⟨rfl, rfl, rfl, ?_⟩
  decide

/-- Claim C1, counterexample.  Resolving the mapping `[("mydir", "docs/")]`
keeps the directory entry alongside its two unrolled file entries.  A
stale regular file at `pkg/out/docs/mydir` — present before the run,
under the staging directory, and the destination of neither resolved
copy (file) entry — survives a clean-enabled run: the copy loop removes
the skipped directory entry's basename-appended destination from the
deletion-candidate set (core.py line 287) before the `isdir` skip (line
293), so the claimed orphan deletion and the claimed set equality both
fail. -/
theorem c1_counterexample :
    resolveMapping sampleFS [("mydir", "docs/")] = .ok
      [⟨"mydir", "docs/", "mydir"⟩, ⟨"mydir/f1", "docs/./", "mydir"⟩,
        ⟨"mydir/sub/f2", "docs/sub/", "mydir"⟩] ∧
    (∀ e ∈ [(⟨"mydir/f1", "docs/./", "mydir"⟩ : Entry),
        ⟨"mydir/sub/f2", "docs/sub/", "mydir"⟩],
      ["pkg", "out", "docs", "mydir"] ≠ finalDst "pkg" "out" e) ∧
    ["pkg", "out", "docs", "mydir"] ∈
      (⟨[(["mydir", "f1"], 5), (["mydir", "sub", "f2"], 5),
        (["pkg", "out", "docs", "mydir"], 3)]⟩ : FileMap).paths ∧
    isUnder (normPath "pkg") ["pkg", "out", "docs", "mydir"] = true ∧
    ["pkg", "out", "docs", "mydir"] ∈
      (runStage (fun s => decide (s = "mydir")) false false 10 "pkg" "out"
        [⟨"mydir", "docs/", "mydir"⟩, ⟨"mydir/f1", "docs/./", "mydir"⟩,
          ⟨"mydir/sub/f2", "docs/sub/", "mydir"⟩]
        ⟨[(["mydir", "f1"], 5), (["mydir", "sub", "f2"], 5),
          (["pkg", "out", "docs", "mydir"], 3)]⟩).fs.paths := by
  decide

/-- Claim C2.  For a manifest whose version field is `MAJOR.MINOR.PATCH`,
`version_control` bumps as specified — major wins over the other flags,
minor over patch, the bumped component's juniors reset to zero — rewrites
the field exactly when a bump occurs, and returns the string unchanged
(without rewriting) for a `None` bump or all-false flags. -/
theorem c2_version_bump (ver : String) (da db dc : List Char) (M m p : Nat)
    (hsplit : splitDot ver.data = [da, db, dc])
    (ha : charsToNat? da = some M) (hb : charsToNat? db = some m)
    (hc : charsToNat? dc = some p) (x y z : Bool) :
    version_control ver (some ⟨true, x, y⟩) =
      some (s!"{M + 1}.0.0", some s!"{M + 1}.0.0") ∧
    version_control ver (some ⟨false, true, z⟩) =
      some (s!"{M}.{m + 1}.0", some s!"{M}.{m + 1}.0") ∧
    version_control ver (some ⟨false, false, true⟩) =
      some (s!"{M}.{m}.{p + 1}", some s!"{M}.{m}.{p + 1}") ∧
    version_control ver none = some (ver, none) ∧
    version_control ver (some ⟨false, false, false⟩) = some (ver, none) := by
  refine ⟨?_, ?_, ?_, rfl, ?_⟩ <;>
    · unfold version_control
      rw [hsplit]
      simp [ha, hb, hc]

/-- Whether the build phase succeeds: no callback, build skipped, or a
zero return value. -/
def buildOk (no_build : Bool) (buildRet : Option Int) : Bool :=
  match no_build, buildRet with
  | false, some r => decide (r = 0)
  | _, _ => true

theorem buildErrOf_noBuild (x : Option Int) : buildErrOf true x = none := rfl

theorem buildErrOf_noCb (b : Bool) : buildErrOf b none = none := by
  cases b <;> rfl

theorem buildErrOf_zero : buildErrOf false (some 0) = none := by
  simp [buildErrOf]

theorem buildErrOf_nonzero (r : Int) (h : r ≠ 0) :
    buildErrOf false (some r) =
      some (.buildFailed s!"fatal: Build script returned error: {r}") := by
  simp [buildErrOf, h]

theorem buildCallsOf_run (r : Int) : buildCallsOf false (some r) = 1 := rfl

theorem buildCallsOf_noBuild (x : Option Int) : buildCallsOf true x = 0 := rfl

theorem buildCallsOf_noCb (b : Bool) : buildCallsOf b none = 0 := by
  cases b <;> rfl

/-- Claim C4.  When the target archive exists and neither `overwrite` nor
`no_archive` is set, `package` raises before any build or copy side
effect; with `overwrite` set (and a successful build and resolution) the
run proceeds to archiving, `shutil.make_archive` replacing the prior
archive. -/
theorem c4_archive_guard (opt : ArgInit)
    (outName version platformTag resultDir : String) (fs : ResFS)
    (isDir : String → Bool) (buildRet : Option Int)
    (m : List (String × String)) (fs0 : FileMap) (now : Nat)
    (gitTagPfx : Option String) (hna : opt.no_archive = false) :
    (opt.overwrite = false →
      (packageModel opt outName version platformTag resultDir fs isDir true
          buildRet m fs0 now gitTagPfx).buildCalls = 0 ∧
      (packageModel opt outName version platformTag resultDir fs isDir true
          buildRet m fs0 now gitTagPfx).copies = 0 ∧
      ∃ s, (packageModel opt outName version platformTag resultDir fs isDir true
          buildRet m fs0 now gitTagPfx).result = .error (.archiveExists s)) ∧
    (opt.overwrite = true → buildOk opt.no_build buildRet = true →
      ∀ es, resolveMapping fs m = .ok es →
      ∃ o, (packageModel opt outName version platformTag resultDir fs isDir true
          buildRet m fs0 now gitTagPfx).result = .ok o ∧ o.archived = true) := by
  constructor
  · intro hov
    simp only [packageModel]
    rw [if_pos ⟨hov, hna, True.intro⟩]
    exact ⟨rfl, rfl, _, rfl⟩
  · intro hov hbo es hes
    simp only [packageModel]
    rw [if_neg (by rw [hov]; rintro ⟨hc, -, -⟩; exact Bool.noConfusion hc)]
    have hbe : buildErrOf opt.no_build buildRet = none := by
      cases hnb : opt.no_build with
      | true => exact buildErrOf_noBuild _
      | false =>
        cases hr : buildRet with
        | none => exact buildErrOf_noCb _
        | some r =>
          rw [hnb, hr] at hbo
          unfold buildOk at hbo
          have hr0 : r = 0 := of_decide_eq_true hbo
          rw [hr0]
          exact buildErrOf_zero
    rw [hbe, hes]
    exact ⟨_, rfl, by simp [hna]⟩

/-- Claim C9.  Provided the archive-exists guard (which core.py places
before the build, line 206 before line 210) has not aborted the run: with
the no-build flag unset and a callback supplied, `package` invokes the
callback exactly once and raises the build-failure exception exactly when
the callback returns non-zero; with the flag set or no callback supplied,
the callback is never invoked and no build-failure exception can occur. -/
theorem c9_build_callback (opt : ArgInit)
    (outName version platformTag resultDir : String) (fs : ResFS)
    (isDir : String → Bool) (archiveExists : Bool) (buildRet : Option Int)
    (m : List (String × String)) (fs0 : FileMap) (now : Nat)
    (gitTagPfx : Option String)
    (hguard : ¬(opt.overwrite = false ∧ opt.no_archive = false ∧
      archiveExists = true)) :
    (∀ r : Int, opt.no_build = false → buildRet = some r →
      (packageModel opt outName version platformTag resultDir fs isDir
          archiveExists buildRet m fs0 now gitTagPfx).buildCalls = 1 ∧
      ((packageModel opt outName version platformTag resultDir fs isDir
          archiveExists buildRet m fs0 now gitTagPfx).result =
        .error (.buildFailed s!"fatal: Build script returned error: {r}") ↔
        r ≠ 0)) ∧
    ((opt.no_build = true ∨ buildRet = none) →
      (packageModel opt outName version platformTag resultDir fs isDir
          archiveExists buildRet m fs0 now gitTagPfx).buildCalls = 0 ∧
      ∀ s, (packageModel opt outName version platformTag resultDir fs isDir
          archiveExists buildRet m fs0 now gitTagPfx).result ≠
        .error (.buildFailed s)) := by
  constructor
  · intro r hnb hr
    simp only [packageModel]
    rw [if_neg hguard, hnb, hr]
    by_cases hr0 : r = 0
    · subst hr0
      rw [buildErrOf_zero]
      refine ⟨?_, ?_, ?_⟩
      · cases hres : resolveMapping fs m <;> rfl
      · intro hc
        cases hres : resolveMapping fs m with
        | error msg => rw [hres] at hc; simp at hc
        | ok es => rw [hres] at hc; simp at hc
      · intro hc
        exact absurd rfl hc
    · rw [buildErrOf_nonzero r hr0]
      exact ⟨rfl, fun _ => hr0, fun _ => rfl⟩
  · intro h
    simp only [packageModel]
    rw [if_neg hguard]
    have hbe : buildErrOf opt.no_build buildRet = none := by
      rcases h with hnb | hr
      · rw [hnb]; exact buildErrOf_noBuild _
      · rw [hr]; exact buildErrOf_noCb _
    have hbc : buildCallsOf opt.no_build buildRet = 0 := by
      rcases h with hnb | hr
      · rw [hnb]; exact buildCallsOf_noBuild _
      · rw [hr]; exact buildCallsOf_noCb _
    rw [hbe]
    refine ⟨?_, ?_⟩
    · cases hres : resolveMapping fs m <;> exact hbc
    · intro s hc
      cases hres : resolveMapping fs m with
      | error msg => rw [hres] at hc; simp at hc
      | ok es => rw [hres] at hc; simp at hc

/-- Claim C8.  The git tag built at core.py line 379: with a prefix supplied
the tag is `<git_tag_prefix>-v<version><suffix>` as the claim states, but
with no prefix the conditional expression evaluates to `None` and the
f-string renders it, producing `Nonev<version><suffix>` instead of the
claimed `v<version><suffix>`. -/
theorem c8_git_tag_format :
    makeTag (some "pre") "1.2.3" "" = "pre-v1.2.3" ∧
    makeTag none "1.2.3" "" = "Nonev1.2.3" ∧
    makeTag none "1.2.3" "" ≠ "v1.2.3" := by
  refine ⟨rfl, rfl, ?_⟩
  decide

/-- Claim C10, counterexample.  A first call that omits `tree_copy_dirs`
and passes `quick_copy_dirs = ["extra"]` permanently extends the shared
default list to `["extra"]`; but a later call omitting both arguments
distributes copies to no directory at all — not to `["extra"]` as the
claim states — because the distribution loop (lines 327-337) iterates
`quick_copy_dirs`, never `tree_copy_dirs`. -/
theorem c10_counterexample :
    (copyDirsCall [] (some ["extra"]) none).1 = ["extra"] ∧
    (copyDirsCall ["extra"] none none).2 = [] := by
  decide

/-- Claim C10, amended.  `tree_copy_dirs += quick_copy_dirs` does extend
the shared default list in place when `tree_copy_dirs` is omitted, so the
default's contents depend on earlier calls; but `tree_copy_dirs` is never
read afterwards — the tree-copy distribution iterates `quick_copy_dirs`
(skipping empty strings) — so a later call omitting both arguments
distributes no copies, and the distributed set depends only on the
explicit `quick_copy_dirs` argument. -/
theorem c10_mutable_default (dflt q : List String) :
    (copyDirsCall dflt (some q) none).1 = dflt ++ q ∧
    (copyDirsCall dflt none none).2 = [] ∧
    ∀ treeArg, (copyDirsCall dflt (some q) treeArg).2 =
      q.filter (fun d => decide (d ≠ "")) := by
  refine ⟨rfl, rfl, fun treeArg => rfl⟩

/-! ### Witnesses: the claim theorems applied at concrete inputs -/

/-- Witness for C1 (amended): resolving `[("mydir", "docs/")]` gives a
directory entry plus two file entries; a clean run over them deletes the
true orphan `junk.txt`, which is no entry's computed destination. -/
theorem c1_witness :
    cleanComp "out" = true ∧
    ["pkg", "out", "junk.txt"] ∉
      (runStage (fun s => decide (s = "mydir")) false false 10 "pkg" "out"
        [⟨"mydir", "docs/", "mydir"⟩, ⟨"mydir/f1", "docs/./", "mydir"⟩,
          ⟨"mydir/sub/f2", "docs/sub/", "mydir"⟩]
        ⟨[(["mydir", "f1"], 5), (["mydir", "sub", "f2"], 5),
          (["pkg", "out", "docs", "mydir"], 3),
          (["pkg", "out", "junk.txt"], 2)]⟩).fs.paths :=
  ⟨by decide,
    (c1_orphan_removal (fun s => decide (s = "mydir")) false 10 "pkg" "out"
      [⟨"mydir", "docs/", "mydir"⟩, ⟨"mydir/f1", "docs/./", "mydir"⟩,
        ⟨"mydir/sub/f2", "docs/sub/", "mydir"⟩]
      ⟨[(["mydir", "f1"], 5), (["mydir", "sub", "f2"], 5),
        (["pkg", "out", "docs", "mydir"], 3),
        (["pkg", "out", "junk.txt"], 2)]⟩
      (by decide)).1
      ["pkg", "out", "junk.txt"] (by decide) (by decide) (by decide)⟩

/-- Witness for C2: the spec's example — from 1.2.3, a major bump gives
2.0.0, a minor bump 1.3.0, a patch bump 1.2.4, and no bump 1.2.3. -/
theorem c2_witness :
    (splitDot "1.2.3".data = [['1'], ['2'], ['3']]) ∧
    (charsToNat? ['1'] = some 1 ∧ charsToNat? ['2'] = some 2 ∧
      charsToNat? ['3'] = some 3) ∧
    version_control "1.2.3" (some ⟨true, false, false⟩) =
      some ("2.0.0", some "2.0.0") ∧
    version_control "1.2.3" (some ⟨false, true, false⟩) =
      some ("1.3.0", some "1.3.0") ∧
    version_control "1.2.3" (some ⟨false, false, true⟩) =
      some ("1.2.4", some "1.2.4") ∧
    version_control "1.2.3" none = some ("1.2.3", none) ∧
    version_control "1.2.3" (some ⟨false, false, false⟩) = some ("1.2.3", none) :=
  ⟨by decide, ⟨by decide, by decide, by decide⟩,
    (c2_version_bump "1.2.3" ['1'] ['2'] ['3'] 1 2 3 (by decide) (by decide)
      (by decide) (by decide) false false false).1,
    (c2_version_bump "1.2.3" ['1'] ['2'] ['3'] 1 2 3 (by decide) (by decide)
      (by decide) (by decide) false false false).2.1,
    (c2_version_bump "1.2.3" ['1'] ['2'] ['3'] 1 2 3 (by decide) (by decide)
      (by decide) (by decide) false false false).2.2.1,
    (c2_version_bump "1.2.3" ['1'] ['2'] ['3'] 1 2 3 (by decide) (by decide)
      (by decide) (by decide) false false false).2.2.2.1,
    (c2_version_bump "1.2.3" ['1'] ['2'] ['3'] 1 2 3 (by decide) (by decide)
      (by decide) (by decide) false false false).2.2.2.2⟩

/-- Witness for C3: staging the resolved mapping of `[("mydir", "docs/")]`
— a directory entry and two file entries — twice: the second run copies
nothing and deletes nothing. -/
theorem c3_witness :
    (∀ e ∈ [(⟨"mydir", "docs/", "mydir"⟩ : Entry), ⟨"mydir/f1", "docs/./", "mydir"⟩,
        ⟨"mydir/sub/f2", "docs/sub/", "mydir"⟩],
      (fun s => decide (s = "mydir")) e.src = false →
        srcFresh ⟨[(["mydir", "f1"], 5), (["mydir", "sub", "f2"], 5)]⟩ 10 e = true) ∧
    (∀ e ∈ [(⟨"mydir", "docs/", "mydir"⟩ : Entry), ⟨"mydir/f1", "docs/./", "mydir"⟩,
        ⟨"mydir/sub/f2", "docs/sub/", "mydir"⟩],
      (fun s => decide (s = "mydir")) e.src = false →
        isUnder (normPath "pkg") (normPath e.src) = false) ∧
    (runStage (fun s => decide (s = "mydir")) false false 20 "pkg" "out"
      [⟨"mydir", "docs/", "mydir"⟩, ⟨"mydir/f1", "docs/./", "mydir"⟩,
        ⟨"mydir/sub/f2", "docs/sub/", "mydir"⟩]
      (runStage (fun s => decide (s = "mydir")) false false 10 "pkg" "out"
        [⟨"mydir", "docs/", "mydir"⟩, ⟨"mydir/f1", "docs/./", "mydir"⟩,
          ⟨"mydir/sub/f2", "docs/sub/", "mydir"⟩]
        ⟨[(["mydir", "f1"], 5), (["mydir", "sub", "f2"], 5)]⟩).fs).copies = 0 ∧
    (runStage (fun s => decide (s = "mydir")) false false 20 "pkg" "out"
      [⟨"mydir", "docs/", "mydir"⟩, ⟨"mydir/f1", "docs/./", "mydir"⟩,
        ⟨"mydir/sub/f2", "docs/sub/", "mydir"⟩]
      (runStage (fun s => decide (s = "mydir")) false false 10 "pkg" "out"
        [⟨"mydir", "docs/", "mydir"⟩, ⟨"mydir/f1", "docs/./", "mydir"⟩,
          ⟨"mydir/sub/f2", "docs/sub/", "mydir"⟩]
        ⟨[(["mydir", "f1"], 5), (["mydir", "sub", "f2"], 5)]⟩).fs).deletions = 0 :=
  ⟨by decide, by decide,
    (c3_stager_idempotent (fun s => decide (s = "mydir")) 10 20 "pkg" "out"
      [⟨"mydir", "docs/", "mydir"⟩, ⟨"mydir/f1", "docs/./", "mydir"⟩,
        ⟨"mydir/sub/f2", "docs/sub/", "mydir"⟩]
      ⟨[(["mydir", "f1"], 5), (["mydir", "sub", "f2"], 5)]⟩
      (by decide) (by decide) (by decide)).1,
    (c3_stager_idempotent (fun s => decide (s = "mydir")) 10 20 "pkg" "out"
      [⟨"mydir", "docs/", "mydir"⟩, ⟨"mydir/f1", "docs/./", "mydir"⟩,
        ⟨"mydir/sub/f2", "docs/sub/", "mydir"⟩]
      ⟨[(["mydir", "f1"], 5), (["mydir", "sub", "f2"], 5)]⟩
      (by decide) (by decide) (by decide)).2⟩

/-- Witness for C4: with a pre-existing archive and no overwrite the run
aborts with the archive-exists error before building or copying; with
overwrite set it completes and archives. -/
theorem c4_witness :
    ((⟨"release", false, false, false, false, false, false, false, none⟩ :
        ArgInit).no_archive = false) ∧
    ((packageModel ⟨"release", false, false, false, false, false, false, false, none⟩
        "myapp" "1.2.3" "Linux-6.1" "out" sampleFS (fun _ => false) true (some 0)
        [] ⟨[]⟩ 7 none).buildCalls = 0 ∧
      (packageModel ⟨"release", false, false, false, false, false, false, false, none⟩
        "myapp" "1.2.3" "Linux-6.1" "out" sampleFS (fun _ => false) true (some 0)
        [] ⟨[]⟩ 7 none).copies = 0 ∧
      ∃ s, (packageModel ⟨"release", false, false, false, false, false, false, false, none⟩
        "myapp" "1.2.3" "Linux-6.1" "out" sampleFS (fun _ => false) true (some 0)
        [] ⟨[]⟩ 7 none).result = .error (.archiveExists s)) ∧
    (∃ o, (packageModel ⟨"release", false, false, true, false, false, false, false, none⟩
        "myapp" "1.2.3" "Linux-6.1" "out" sampleFS (fun _ => false) true (some 0)
        [] ⟨[]⟩ 7 none).result = .ok o ∧ o.archived = true) :=
  ⟨rfl,
    (c4_archive_guard ⟨"release", false, false, false, false, false, false, false, none⟩
      "myapp" "1.2.3" "Linux-6.1" "out" sampleFS (fun _ => false) (some 0)
      [] ⟨[]⟩ 7 none rfl).1 rfl,
    (c4_archive_guard ⟨"release", false, false, true, false, false, false, false, none⟩
      "myapp" "1.2.3" "Linux-6.1" "out" sampleFS (fun _ => false) (some 0)
      [] ⟨[]⟩ 7 none rfl).2 rfl rfl [] rfl⟩

/-- Witness for C5 (amended): a wildcard entry with destination "docs"
(no trailing '/') aborts resolution with the message naming its source,
regardless of the entry that follows it. -/
theorem c5_witness :
    hasWildcard "*.txt" = true ∧ ("docs" : String) ≠ "" ∧
    endsSlash "docs" = false ∧
    (∀ p ∈ [(("f.txt", "docs/") : String × String)], entryOk p = true) ∧
    globPhase sampleFS (validate ([("f.txt", "docs/")] ++ ("*.txt", "docs") :: [("x", "y")])) =
      .error ("fatal: Globbed source path must be directory: " ++ "*.txt") :=
  ⟨by decide, by decide, by decide, by decide,
    c5_wildcard_dest_guard sampleFS [("f.txt", "docs/")] [("x", "y")] "*.txt" "docs"
      (by decide) (by decide) (by decide) (by decide)⟩

/-- Witness for C6: unrolling the directory `mydir` (a file `f1` at its
top, `f2` in subdirectory `sub`) under destination `docs/`. -/
theorem c6_witness :
    sampleFS.isFile "mydir" = false ∧ walkWf (sampleFS.walk "mydir") = true ∧
    ((unrollOne sampleFS ⟨"mydir", "docs/", "mydir"⟩).map
        (fun e => (e.src, normPath (finalRelDst e))) =
      (walkFiles sampleFS "mydir").map
        (fun w => (pjoin (joinComps "mydir" w.1) w.2, normPath "docs/" ++ w.1 ++ [w.2]))) ∧
    ((walkFiles sampleFS "mydir").map (fun w => w.1 ++ [w.2])).Nodup :=
  ⟨by decide, by decide,
    (c6_directory_unroll sampleFS "mydir" "docs/" "mydir" (by decide) (by decide)).1,
    (c6_directory_unroll sampleFS "mydir" "docs/" "mydir" (by decide) (by decide)).2⟩

/-- Witness for C7 (amended): the plain-file entry
`("f.txt", "docs/x.txt")` resolves to exactly itself. -/
theorem c7_witness :
    hasWildcard "f.txt" = false ∧ sampleFS.isFile "f.txt" = true ∧
    ("docs/x.txt" : String) ≠ "" ∧
    resolveMapping sampleFS [("f.txt", "docs/x.txt")] =
      .ok [⟨"f.txt", "docs/x.txt", "f.txt"⟩] :=
  ⟨by decide, by decide, by decide,
    (c7_plain_file_entry sampleFS "f.txt" "docs/x.txt"
      (by decide) (by decide) (by decide)).1⟩

/-- Witness for C9: with no pre-existing archive, a callback returning 5
is invoked once and the run aborts with the build-failure error. -/
theorem c9_witness :
    (¬((⟨"release", false, false, false, false, false, false, false, none⟩ :
        ArgInit).overwrite = false ∧
      (⟨"release", false, false, false, false, false, false, false, none⟩ :
        ArgInit).no_archive = false ∧ (false : Bool) = true)) ∧
    (packageModel ⟨"release", false, false, false, false, false, false, false, none⟩
      "myapp" "1.2.3" "Linux-6.1" "out" sampleFS (fun _ => false) false (some 5)
      [] ⟨[]⟩ 7 none).buildCalls = 1 ∧
    ((packageModel ⟨"release", false, false, false, false, false, false, false, none⟩
      "myapp" "1.2.3" "Linux-6.1" "out" sampleFS (fun _ => false) false (some 5)
      [] ⟨[]⟩ 7 none).result =
        .error (.buildFailed "fatal: Build script returned error: 5") ↔ (5 : Int) ≠ 0) :=
  ⟨by decide,
    ((c9_build_callback ⟨"release", false, false, false, false, false, false, false, none⟩
      "myapp" "1.2.3" "Linux-6.1" "out" sampleFS (fun _ => false) false (some 5)
      [] ⟨[]⟩ 7 none (by decide)).1 5 rfl rfl).1,
    ((c9_build_callback ⟨"release", false, false, false, false, false, false, false, none⟩
      "myapp" "1.2.3" "Linux-6.1" "out" sampleFS (fun _ => false) false (some 5)
      [] ⟨[]⟩ 7 none (by decide)).1 5 rfl rfl).2⟩

end PackageIt
